import Mathlib

/-!
# RampConvert: ramp texture to colour-curve conversion

A shallow embedding of `FRampConvertModule::OnGenerateRamp`
(`Source/RampConvert/Private/RampConvert.cpp`) together with the properties
of the conversion that the specification states.

Modelling conventions.

* `int32` values are integers; the `int32` multiplications and additions
  that compute the buffer size and the byte offsets are followed by
  `wrapInt32`, the two's-complement reduction to 32 bits. The loop counters
  stay below `Width` and `Height` and `Width - 1` is computed for
  `Width > 1` only, so these cannot overflow.
* `uint8` is `Fin 256`.
* `float` is IEEE 754 binary32: a value is a finite rational, an infinity
  or a NaN, and the conversion of an integer and the division round to
  nearest, ties to even (`float.round`).
* `TArray<uint8>` is a list of bytes. An operation of the engine that
  asserts (a negative array size, an index outside the array) or reads
  outside the locked mip is a `Fault`, and aborts the conversion.
* The effect of `OnGenerateRamp` (the packages and curve objects it
  creates) is returned as the list of created curve assets, in creation
  order. `CreatePackage` and `NewObject` return an object, so the branch
  `if (Curve)` is the one taken.
-/

namespace RampConvert

/-! ## Data model -/

/-- Modelled from the spec: the engine enumeration `ETextureSourceFormat` is
not declared in this repository. The spec describes it as an enumerated pixel
format of which exactly one 8-bit, 4-channel, byte-order-specific format is
supported; the source names that one `TSF_BGRA8`. Every other enumerator is
`TSF_Other n`. -/
inductive ETextureSourceFormat where
  | TSF_BGRA8 : ETextureSourceFormat
  | TSF_Other : Nat → ETextureSourceFormat
  deriving DecidableEq, Repr

open ETextureSourceFormat

/-- The C++ type `uint8`. -/
abbrev uint8 : Type := Fin 256

/-- Two's-complement reduction of an integer to the range of `int32`. -/
def wrapInt32 (v : Int) : Int := (v + 2 ^ 31) % 2 ^ 32 - 2 ^ 31

/-- Ways in which the engine aborts the conversion. -/
inductive Fault where
  /-- The call `TArray::SetNumUninitialized` with a negative count. -/
  | InvalidArrayNum : Fault
  /-- The call `FMemory::Memcpy` reading more bytes than the locked mip holds. -/
  | SourceOverrun : Fault
  /-- The call `TArray::operator[]` with an index outside `[0, Num())`. -/
  | IndexOutOfRange : Fault
  deriving DecidableEq, Repr

/-- The parts of a `UTexture2D` that `OnGenerateRamp` reads. -/
structure UTexture2D where
  /-- The value of `Source.GetFormat()`. -/
  SourceFormat : ETextureSourceFormat
  /-- The value of `GetSizeX()`, an `int32`. -/
  SizeX : Int
  /-- The value of `GetSizeY()`, an `int32`. -/
  SizeY : Int
  /-- The `SRGB` flag. -/
  SRGB : Bool
  /-- The result of `Source.LockMip(0)`: `none` is the null pointer,
  `some bytes` the bytes of the locked mip. -/
  Mip0 : Option (List uint8)

/-- The parts of an `FAssetData` that `OnGenerateRamp` reads. -/
structure FAssetData where
  /-- The value of `PackageName.ToString()`. -/
  PackageName : String
  /-- The value of `AssetName.ToString()`. -/
  AssetName : String
  /-- The result of `Cast<UTexture2D>(GetAsset())`: `none` when it is null. -/
  Asset : Option UTexture2D

/-- A value of the C++ type `float` (IEEE 754 binary32): a finite number, an
infinity (`true` for the negative one) or a NaN. The two zeros are not
distinguished; no operation of the conversion produces a negative number. -/
inductive float where
  | finite : ℚ → float
  | inf : Bool → float
  | nan : float
  deriving DecidableEq, Repr

/-- The integer nearest to `t`, the even one of the two when `t` lies halfway
between two integers. -/
def roundHalfEven (t : ℚ) : Int :=
  if t - (⌊t⌋ : ℚ) < 1 / 2 then ⌊t⌋
  else if 1 / 2 < t - (⌊t⌋ : ℚ) then ⌊t⌋ + 1
  else if ⌊t⌋ % 2 = 0 then ⌊t⌋ else ⌊t⌋ + 1

/-- The exponent of the binary32 numbers around `q ≠ 0`: `⌊log₂ |q|⌋`, and
`-126` in the subnormal range. -/
def float.exponent (q : ℚ) : Int := max (Int.log 2 |q|) (-126)

/-- The number `q` rounded to binary32, to nearest with ties to even: the
multiple of `2 ^ (exponent q - 23)` nearest to `q`, and an infinity when that
multiple is `2 ^ 128` or more in magnitude. -/
def float.round (q : ℚ) : float :=
  if q = 0 then .finite 0
  else if 2 ^ 128 ≤
      |(roundHalfEven (q / 2 ^ (float.exponent q - 23)) : ℚ) * 2 ^ (float.exponent q - 23)| then
    .inf (decide (q < 0))
  else
    .finite ((roundHalfEven (q / 2 ^ (float.exponent q - 23)) : ℚ) *
      2 ^ (float.exponent q - 23))

/-- The conversion `(float)n` of an integer. -/
def float.ofInt (n : Int) : float := float.round (n : ℚ)

/-- The `float` division `a / b`. -/
def float.div : float → float → float
  | .nan, _ => .nan
  | _, .nan => .nan
  | .inf _, .inf _ => .nan
  | .inf s, .finite b => .inf (s != decide (b < 0))
  | .finite _, .inf _ => .finite 0
  | .finite a, .finite b =>
    if b = 0 then (if a = 0 then .nan else .inf (decide (a < 0))) else float.round (a / b)

/-- The `float` comparison `a < b`; it is false when either side is a NaN. -/
def float.lt : float → float → Prop
  | .finite a, .finite b => a < b
  | .finite _, .inf s => s = false
  | .inf s, .finite _ => s = true
  | .inf s, .inf u => s = true ∧ u = false
  | _, _ => False

/-- An 8-bit colour, `FColor(R, G, B, A)`. -/
structure FColor where
  R : uint8
  G : uint8
  B : uint8
  A : uint8
  deriving DecidableEq, Repr

/-- A colour with `float` channels. -/
structure FLinearColor where
  R : float
  G : float
  B : float
  A : float
  deriving DecidableEq, Repr

/-- One key of a curve. -/
structure FRichCurveKey where
  Time : float
  Value : float
  deriving DecidableEq, Repr

/-- A scalar curve, as the sequence of the keys added to it by `AddKey`, in
the order of the calls. -/
abbrev FRichCurve : Type := List FRichCurveKey

/-- The call `FRichCurve::AddKey(Time, Value)`. -/
def FRichCurve.AddKey (Curve : FRichCurve) (Time Value : float) : FRichCurve :=
  Curve ++ [⟨Time, Value⟩]

/-- A `UCurveLinearColor`: the array `FloatCurves[4]` of its R, G, B and A
curves. -/
structure UCurveLinearColor where
  FloatCurves : Fin 4 → FRichCurve

/-- The result of `NewObject<UCurveLinearColor>`: a curve object whose four
curves have no key. -/
def UCurveLinearColor.NewObject : UCurveLinearColor := ⟨fun _ => []⟩

/-- The call `Curve->FloatCurves[i].AddKey(Time, Value)`. -/
def UCurveLinearColor.AddKey (Curve : UCurveLinearColor) (i : Fin 4) (Time Value : float) :
    UCurveLinearColor :=
  ⟨Function.update Curve.FloatCurves i ((Curve.FloatCurves i).AddKey Time Value)⟩

/-- A curve object created by the conversion, with the names of its package
and of the object itself. -/
structure CurveAsset where
  PackageName : String
  AssetName : String
  Curve : UCurveLinearColor

/-! ## The conversion -/

/-- The `%d` conversion of `FString::Printf`. -/
def decimal (y : Int) : String :=
  if y < 0 then "-" ++ Nat.repr (-y).toNat else Nat.repr y.toNat

/-- The string `FString::Printf(TEXT("_Curve_%d"), y)`. -/
def Suffix (y : Int) : String := "_Curve_" ++ decimal y

/-- The value `Width * Height * 4` passed to `SetNumUninitialized`. -/
def RawDataNum (Width Height : Int) : Int :=
  wrapInt32 (wrapInt32 (Width * Height) * 4)

/-- The statements that fill `RawData` from mip 0:
`if (MipData && Width > 0 && Height > 0) { SetNumUninitialized; Memcpy }`. -/
def copyMip (MipData : Option (List uint8)) (Width Height : Int) :
    Except Fault (List uint8) :=
  match MipData with
  | none => .ok []
  | some Mip =>
    if Width > 0 ∧ Height > 0 then
      if RawDataNum Width Height < 0 then .error .InvalidArrayNum
      else if Mip.length < (RawDataNum Width Height).toNat then .error .SourceOverrun
      else .ok (Mip.take (RawDataNum Width Height).toNat)
    else .ok []

/-- The read `RawData[Index]`, range-checked as `TArray::operator[]` is. -/
def RawDataAt (RawData : List uint8) (Index : Int) : Except Fault uint8 :=
  if Index < 0 then .error .IndexOutOfRange
  else
    match RawData[Index.toNat]? with
    | some b => .ok b
    | none => .error .IndexOutOfRange

/-- The offset `int32 Index = (y * Width + x) * 4`. -/
def Index (Width y x : Int) : Int :=
  wrapInt32 (wrapInt32 (wrapInt32 (y * Width) + x) * 4)

/-- The four reads of one pixel in the `SourceFormat == TSF_BGRA8` branch. -/
def readBGRA (RawData : List uint8) (Index : Int) : Except Fault FColor := do
  let B ← RawDataAt RawData Index
  let G ← RawDataAt RawData (wrapInt32 (Index + 1))
  let R ← RawDataAt RawData (wrapInt32 (Index + 2))
  let A ← RawDataAt RawData (wrapInt32 (Index + 3))
  pure ⟨R, G, B, A⟩

/-- The four reads of one pixel in the `else` branch. -/
def readRGBA (RawData : List uint8) (Index : Int) : Except Fault FColor := do
  let R ← RawDataAt RawData Index
  let G ← RawDataAt RawData (wrapInt32 (Index + 1))
  let B ← RawDataAt RawData (wrapInt32 (Index + 2))
  let A ← RawDataAt RawData (wrapInt32 (Index + 3))
  pure ⟨R, G, B, A⟩

/-- The reads of one pixel: `if (SourceFormat == TSF_BGRA8) ... else ...`. -/
def readPixel (SourceFormat : ETextureSourceFormat) (RawData : List uint8) (Index : Int) :
    Except Fault FColor :=
  if SourceFormat = TSF_BGRA8 then readBGRA RawData Index else readRGBA RawData Index

/-- The colour `FLinearColor(R / 255.f, G / 255.f, B / 255.f, A / 255.f)`: each
`uint8` channel is promoted to `int`, converted to `float` and divided by the
`float` constant `255.f`. -/
def scale255 (c : FColor) : FLinearColor :=
  ⟨(float.ofInt (c.R.val : Int)).div (float.round 255),
    (float.ofInt (c.G.val : Int)).div (float.round 255),
    (float.ofInt (c.B.val : Int)).div (float.round 255),
    (float.ofInt (c.A.val : Int)).div (float.round 255)⟩

/-- The colour of one pixel: `if (Texture->SRGB) FLinearColor(FColor(R, G, B, A))
else FLinearColor(R / 255.f, ...)`. The engine conversion `FLinearColor(FColor)`
is not part of this repository and is the parameter `toLinear`. -/
def LinearColor (toLinear : FColor → FLinearColor) (SRGB : Bool) (c : FColor) :
    FLinearColor :=
  if SRGB then toLinear c else scale255 c

/-- The time `float Time = (Width > 1) ? (float)x / (float)(Width - 1) : 0.f`. The
subtraction is evaluated only when `Width > 1`, where it cannot overflow. -/
def Time (Width x : Int) : float :=
  if Width > 1 then (float.ofInt x).div (float.ofInt (Width - 1)) else float.finite 0

/-- The four `AddKey` calls of one pixel. -/
def addKeys (Curve : UCurveLinearColor) (Time : float) (c : FLinearColor) :
    UCurveLinearColor :=
  (((Curve.AddKey 0 Time c.R).AddKey 1 Time c.G).AddKey 2 Time c.B).AddKey 3 Time c.A

/-- A counted loop `for (i = start; i < bound; ++i) body`, given the number
`n` of iterations left; it stops at the first fault. The loop
`for (i = 0; i < bound; ++i)` is `forLoop body bound.toNat 0`: it runs for
`i = 0, ..., bound - 1`, and not at all when `bound ≤ 0`. -/
def forLoop {σ : Type} (body : Int → σ → Except Fault σ) : Nat → Int → σ → Except Fault σ
  | 0, _, s => .ok s
  | n + 1, i, s =>
    match body i s with
    | .error e => .error e
    | .ok s1 => forLoop body n (i + 1) s1

/-- The body of the loop over `x`, with the reads of the pixel given by
`reader`. -/
def pixelStep (reader : ETextureSourceFormat → List uint8 → Int → Except Fault FColor)
    (toLinear : FColor → FLinearColor) (SourceFormat : ETextureSourceFormat) (SRGB : Bool)
    (Width : Int) (RawData : List uint8) (y x : Int) (Curve : UCurveLinearColor) :
    Except Fault UCurveLinearColor :=
  match reader SourceFormat RawData (Index Width y x) with
  | .error e => .error e
  | .ok c => .ok (addKeys Curve (Time Width x) (LinearColor toLinear SRGB c))

/-- The curve object of row `y`: `NewObject` followed by the loop over `x`. -/
def rowCurve (reader : ETextureSourceFormat → List uint8 → Int → Except Fault FColor)
    (toLinear : FColor → FLinearColor) (SourceFormat : ETextureSourceFormat) (SRGB : Bool)
    (Width : Int) (RawData : List uint8) (y : Int) : Except Fault UCurveLinearColor :=
  forLoop (pixelStep reader toLinear SourceFormat SRGB Width RawData y) Width.toNat 0
    UCurveLinearColor.NewObject

/-- The body of the loop over `y`: the package and curve object of row `y`
are created, the curve receives the keys of the row, and the object is
registered. -/
def rowStep (reader : ETextureSourceFormat → List uint8 → Int → Except Fault FColor)
    (toLinear : FColor → FLinearColor) (SourceFormat : ETextureSourceFormat) (SRGB : Bool)
    (Width : Int) (RawData : List uint8) (BasePackageName BaseAssetName : String)
    (y : Int) (Created : List CurveAsset) : Except Fault (List CurveAsset) :=
  match rowCurve reader toLinear SourceFormat SRGB Width RawData y with
  | .error e => .error e
  | .ok Curve =>
    .ok (Created ++ [⟨BasePackageName ++ Suffix y, BaseAssetName ++ Suffix y, Curve⟩])

/-- The function `OnGenerateRamp`, with the per-pixel reads given by `reader`. -/
def OnGenerateRampWith (reader : ETextureSourceFormat → List uint8 → Int → Except Fault FColor)
    (toLinear : FColor → FLinearColor) (SelectedAsset : FAssetData) :
    Except Fault (List CurveAsset) :=
  match SelectedAsset.Asset with
  | none => .ok []
  | some Texture =>
    if Texture.SourceFormat ≠ TSF_BGRA8 then .ok []
    else
      match copyMip Texture.Mip0 Texture.SizeX Texture.SizeY with
      | .error e => .error e
      | .ok RawData =>
        if RawData.length = 0 then .ok []
        else
          forLoop
            (rowStep reader toLinear Texture.SourceFormat Texture.SRGB Texture.SizeX RawData
              SelectedAsset.PackageName SelectedAsset.AssetName)
            Texture.SizeY.toNat 0 []

/-- The function `FRampConvertModule::OnGenerateRamp`: the curve assets created
for the selected asset. -/
def OnGenerateRamp (toLinear : FColor → FLinearColor) (SelectedAsset : FAssetData) :
    Except Fault (List CurveAsset) :=
  OnGenerateRampWith readPixel toLinear SelectedAsset

/-! ## Notions used to state the properties -/

/-- The channel of a colour that goes to curve `i`: R, G, B, A for
`i = 0, 1, 2, 3`. -/
def FLinearColor.Component (c : FLinearColor) (i : Fin 4) : float :=
  match i with
  | 0 => c.R
  | 1 => c.G
  | 2 => c.B
  | 3 => c.A

/-- The `float` `f` is the number `q` rounded to binary32, and it is a finite
number at most `2 ^ (-25)` away from `q`. -/
def float.IsRounded (f : float) (q : ℚ) : Prop :=
  f = float.round q ∧ ∃ v : ℚ, f = float.finite v ∧ |v - q| ≤ 1 / 2 ^ 25

/-- The pixel stored at offset `o` of a buffer in BGRA byte order; a byte
outside the buffer reads as `0`. -/
def bgraAt (RawData : List uint8) (o : Nat) : FColor :=
  ⟨RawData.getD (o + 2) 0, RawData.getD (o + 1) 0, RawData.getD o 0, RawData.getD (o + 3) 0⟩

/-- The curve object of row `y`, or an object without keys when the loop
over `x` faults. -/
def rowCurveD (reader : ETextureSourceFormat → List uint8 → Int → Except Fault FColor)
    (toLinear : FColor → FLinearColor) (SourceFormat : ETextureSourceFormat) (SRGB : Bool)
    (Width : Int) (RawData : List uint8) (y : Int) : UCurveLinearColor :=
  match rowCurve reader toLinear SourceFormat SRGB Width RawData y with
  | .ok Curve => Curve
  | .error _ => UCurveLinearColor.NewObject

/-- The curve object that the conversion builds for row `y` of a buffer in
BGRA order. -/
def rowCurveOf (toLinear : FColor → FLinearColor) (SRGB : Bool) (W : Nat)
    (RawData : List uint8) (y : Nat) : UCurveLinearColor :=
  ⟨fun i => (List.range W).map (fun x : Nat =>
    ⟨Time (W : Int) (x : Int),
      (LinearColor toLinear SRGB (bgraAt RawData ((y * W + x) * 4))).Component i⟩)⟩

/-- The number that a string of decimal digits denotes. -/
def digitsValue (cs : List Char) : Nat :=
  cs.foldl (fun acc c => 10 * acc + (c.toNat - 48)) 0

/-! ## Examples -/

/-- A stand-in for the engine conversion `FLinearColor(FColor)`, for the
examples; the properties below hold for every such function. -/
def exampleToLinear : FColor → FLinearColor := scale255

/-- The bytes of the 2×1 image of the specification: a blue pixel and a green
pixel, both opaque, in BGRA order. -/
def exampleBytes : List uint8 := [255, 0, 0, 255, 0, 255, 0, 255]

/-- The 2×1 image of the specification, not sRGB. -/
def exampleTexture : UTexture2D := ⟨TSF_BGRA8, 2, 1, false, some exampleBytes⟩

/-- A selected asset holding `exampleTexture`. -/
def exampleAsset : FAssetData := ⟨"/Game/Ramp", "Ramp", some exampleTexture⟩

/-- The bytes of an image of width 1 and height 2. -/
def columnBytes : List uint8 := [10, 20, 30, 40, 50, 60, 70, 80]

/-- An sRGB image of width 1 and height 2. -/
def columnTexture : UTexture2D := ⟨TSF_BGRA8, 1, 2, true, some columnBytes⟩

/-- A selected asset holding `columnTexture`. -/
def columnAsset : FAssetData := ⟨"/Game/Column", "Column", some columnTexture⟩

/-- The bytes of an image of width 1 and height 2 whose row 0 is that of
`columnBytes` and whose row 1 differs. -/
def otherColumnBytes : List uint8 := [10, 20, 30, 40, 1, 2, 3, 4]

/-- The bytes of an image of one pixel, whose blue, green and red bytes are
51. -/
def grayBytes : List uint8 := [51, 51, 51, 255]

/-- An image of one pixel, not sRGB. -/
def grayTexture : UTexture2D := ⟨TSF_BGRA8, 1, 1, false, some grayBytes⟩

/-- A selected asset holding `grayTexture`. -/
def grayAsset : FAssetData := ⟨"/Game/Gray", "Gray", some grayTexture⟩

/-- The bytes of a black, transparent image of width 4 and height 1. -/
def blackBytes : List uint8 := [0, 0, 0, 0, 0, 0, 0, 0, 0, 0, 0, 0, 0, 0, 0, 0]

/-- A black image of width 4 and height 1, not sRGB. -/
def blackTexture : UTexture2D := ⟨TSF_BGRA8, 4, 1, false, some blackBytes⟩

/-- A selected asset holding `blackTexture`. -/
def blackAsset : FAssetData := ⟨"/Game/Black", "Black", some blackTexture⟩

/-- The bytes of a black, transparent image of width 16777218 and height 1. -/
def wideBytes : List uint8 := List.replicate (16777218 * 1 * 4) 0

/-- A black image of width 16777218 (`2 ^ 24 + 2`) and height 1, not sRGB. -/
def wideTexture : UTexture2D := ⟨TSF_BGRA8, 16777218, 1, false, some wideBytes⟩

/-- A selected asset holding `wideTexture`. -/
def wideAsset : FAssetData := ⟨"/Game/Wide", "Wide", some wideTexture⟩

/-! ## Arithmetic of `int32` -/

theorem wrapInt32_eq_self {v : Int} (h1 : -2 ^ 31 ≤ v) (h2 : v < 2 ^ 31) : wrapInt32 v = v := by
  unfold wrapInt32
  norm_num at h1 h2 ⊢
  omega

theorem wrapInt32_range (v : Int) : -2 ^ 31 ≤ wrapInt32 v ∧ wrapInt32 v < 2 ^ 31 := by
  unfold wrapInt32
  norm_num
  omega

theorem RawDataNum_eq {W H : Int} (hW : 0 < W) (hH : 0 < H) (hfit : W * H * 4 < 2 ^ 31) :
    RawDataNum W H = W * H * 4 := by
  have h0 : 0 < W * H := Int.mul_pos hW hH
  unfold RawDataNum
  rw [wrapInt32_eq_self (v := W * H) (by norm_num; omega) (by norm_num at hfit ⊢; omega)]
  exact wrapInt32_eq_self (by norm_num; omega) hfit

theorem pixel_bound {W H y x : Int} (hy0 : 0 ≤ y) (hy : y < H) (hx0 : 0 ≤ x) (hx : x < W) :
    0 ≤ y * W ∧ y * W + x + 1 ≤ W * H := by
  have hW : 0 < W := by omega
  constructor
  · exact Int.mul_nonneg hy0 (by omega)
  · have : (y + 1) * W ≤ H * W := Int.mul_le_mul_of_nonneg_right (by omega) (by omega)
    nlinarith

theorem Index_eq {W H y x : Int} (hy0 : 0 ≤ y) (hy : y < H) (hx0 : 0 ≤ x) (hx : x < W)
    (hfit : W * H * 4 < 2 ^ 31) : Index W y x = (y * W + x) * 4 := by
  obtain ⟨h1, h2⟩ := pixel_bound hy0 hy hx0 hx
  norm_num at hfit
  unfold Index
  rw [wrapInt32_eq_self (v := y * W) (by norm_num; omega) (by norm_num; omega)]
  rw [wrapInt32_eq_self (v := y * W + x) (by norm_num; omega) (by norm_num; omega)]
  exact wrapInt32_eq_self (by norm_num; omega) (by norm_num; omega)

/-! ## Rounding to binary32 -/

theorem roundHalfEven_sub_le (t : ℚ) : |((roundHalfEven t : Int) : ℚ) - t| ≤ 1 / 2 := by
  have h1 : (⌊t⌋ : ℚ) ≤ t := Int.floor_le t
  have h2 : t < (⌊t⌋ : ℚ) + 1 := Int.lt_floor_add_one t
  unfold roundHalfEven
  split_ifs with c1 c2 c3
  · rw [abs_le]; constructor <;> linarith
  · push_cast; rw [abs_le]; constructor <;> linarith
  · rw [abs_le]; constructor <;> linarith
  · push_cast; rw [abs_le]; constructor <;> linarith

theorem roundHalfEven_intCast (z : Int) : roundHalfEven (z : ℚ) = z := by
  unfold roundHalfEven
  simp

theorem le_roundHalfEven {N : Int} {t : ℚ} (h : (N : ℚ) ≤ t) : N ≤ roundHalfEven t := by
  have h1 := roundHalfEven_sub_le t
  rw [abs_le] at h1
  have h2 : ((N : Int) : ℚ) - 1 < ((roundHalfEven t : Int) : ℚ) := by linarith [h1.1]
  have h3 : N - 1 < roundHalfEven t := by exact_mod_cast h2
  omega

theorem roundHalfEven_le {N : Int} {t : ℚ} (h : t ≤ (N : ℚ)) : roundHalfEven t ≤ N := by
  have h1 := roundHalfEven_sub_le t
  rw [abs_le] at h1
  have h2 : ((roundHalfEven t : Int) : ℚ) < ((N : Int) : ℚ) + 1 := by linarith [h1.2]
  have h3 : roundHalfEven t < N + 1 := by exact_mod_cast h2
  omega

theorem exponent_eq {q : ℚ} {e : Int} (h1 : (2 : ℚ) ^ e ≤ q) (h2 : q < (2 : ℚ) ^ (e + 1))
    (he : -126 ≤ e) : float.exponent q = e := by
  have hq : 0 < q := lt_of_lt_of_le (zpow_pos (by norm_num) e) h1
  have hl : Int.log 2 q = e := by
    have a1 : e ≤ Int.log 2 q := by
      rw [← Int.zpow_le_iff_le_log (by norm_num) hq]; exact_mod_cast h1
    have a2 : Int.log 2 q < e + 1 := by
      rw [← Int.lt_zpow_iff_log_lt (by norm_num) hq]; exact_mod_cast h2
    omega
  unfold float.exponent
  rw [abs_of_pos hq, hl]
  exact max_eq_left he

theorem two_zpow_split (e : Int) : (2 : ℚ) ^ (e + 1) = 2 ^ 24 * 2 ^ (e - 23) := by
  rw [show e + 1 = 24 + (e - 23) by ring, zpow_add₀ (by norm_num : (2 : ℚ) ≠ 0)]
  norm_num

theorem two_zpow_split_low (e : Int) : (2 : ℚ) ^ e = 2 ^ 23 * 2 ^ (e - 23) := by
  rw [show e = 23 + (e - 23) by ring, zpow_add₀ (by norm_num : (2 : ℚ) ≠ 0)]
  norm_num

theorem two_zpow_half (e : Int) : (2 : ℚ) ^ (e - 24) = 1 / 2 * 2 ^ (e - 23) := by
  rw [show e - 24 = -1 + (e - 23) by ring, zpow_add₀ (by norm_num : (2 : ℚ) ≠ 0)]
  norm_num

/-- Rounding of a number of the binade `[2 ^ e, 2 ^ (e + 1))`, in the normal
range: the result is finite, a multiple `m * 2 ^ (e - 23)` with
`2 ^ 23 ≤ m ≤ 2 ^ 24`, at most half a unit `2 ^ (e - 23)` away. -/
theorem round_binade {q : ℚ} {e : Int} (h1 : (2 : ℚ) ^ e ≤ q) (h2 : q < (2 : ℚ) ^ (e + 1))
    (he1 : -126 ≤ e) (he2 : e ≤ 126) :
    float.round q =
        .finite ((roundHalfEven (q / 2 ^ (e - 23)) : ℚ) * 2 ^ (e - 23)) ∧
      2 ^ 23 ≤ roundHalfEven (q / 2 ^ (e - 23)) ∧
      roundHalfEven (q / 2 ^ (e - 23)) ≤ 2 ^ 24 ∧
      |(roundHalfEven (q / 2 ^ (e - 23)) : ℚ) * 2 ^ (e - 23) - q| ≤ 2 ^ (e - 24) := by
  have hq : 0 < q := lt_of_lt_of_le (zpow_pos (by norm_num) e) h1
  have hQ : (0 : ℚ) < 2 ^ (e - 23) := zpow_pos (by norm_num) _
  have hex := exponent_eq h1 h2 he1
  have ht1 : ((2 ^ 23 : Int) : ℚ) ≤ q / 2 ^ (e - 23) := by
    rw [le_div_iff₀ hQ]
    have := two_zpow_split_low e
    norm_num at this ⊢
    linarith
  have ht2 : q / 2 ^ (e - 23) ≤ ((2 ^ 24 : Int) : ℚ) := by
    rw [div_le_iff₀ hQ]
    have := two_zpow_split e
    norm_num at this ⊢
    linarith
  have hm1 := le_roundHalfEven ht1
  have hm2 := roundHalfEven_le ht2
  have herr := roundHalfEven_sub_le (q / 2 ^ (e - 23))
  have hm2q : ((roundHalfEven (q / 2 ^ (e - 23)) : Int) : ℚ) ≤ 2 ^ 24 := by exact_mod_cast hm2
  have hm1q : (0 : ℚ) ≤ ((roundHalfEven (q / 2 ^ (e - 23)) : Int) : ℚ) := by
    have : (0 : Int) ≤ roundHalfEven (q / 2 ^ (e - 23)) := by
      have : (0 : Int) ≤ 2 ^ 23 := by norm_num
      omega
    exact_mod_cast this
  refine ⟨?_, hm1, hm2, ?_⟩
  · unfold float.round
    rw [if_neg hq.ne', hex]
    have hlt : ¬ (2 : ℚ) ^ 128 ≤
        |(roundHalfEven (q / 2 ^ (e - 23)) : ℚ) * 2 ^ (e - 23)| := by
      rw [abs_of_nonneg (mul_nonneg hm1q hQ.le), not_le]
      have h3 : (roundHalfEven (q / 2 ^ (e - 23)) : ℚ) * 2 ^ (e - 23) ≤ 2 ^ (e + 1) := by
        rw [two_zpow_split]; exact mul_le_mul_of_nonneg_right hm2q hQ.le
      have h4 : (2 : ℚ) ^ (e + 1) ≤ 2 ^ (127 : Int) :=
        zpow_le_zpow_right₀ (by norm_num) (by omega)
      have h5 : (2 : ℚ) ^ (127 : Int) < 2 ^ 128 := by norm_num
      linarith
    rw [if_neg hlt]
  · have e1 : (roundHalfEven (q / 2 ^ (e - 23)) : ℚ) * 2 ^ (e - 23) - q =
        ((roundHalfEven (q / 2 ^ (e - 23)) : ℚ) - q / 2 ^ (e - 23)) * 2 ^ (e - 23) := by
      field_simp
    rw [e1, abs_mul, abs_of_pos hQ, two_zpow_half]
    exact mul_le_mul_of_nonneg_right herr hQ.le

theorem round_zero : float.round 0 = .finite 0 := by
  simp [float.round]

/-- A number `x * 2 ^ k` with `1 ≤ x < 2 ^ 24` is a binary32 number: rounding
leaves it unchanged. -/
theorem round_dyadic (x : Nat) (k : Int) (hx1 : 1 ≤ x) (hx2 : x < 2 ^ 24)
    (hk1 : -126 ≤ k) (hk2 : k ≤ 100) :
    float.round ((x : ℚ) * 2 ^ k) = .finite ((x : ℚ) * 2 ^ k) := by
  have hL1 : 2 ^ Nat.log 2 x ≤ x := Nat.pow_log_le_self 2 (by omega)
  have hL2 : x < 2 ^ (Nat.log 2 x + 1) := Nat.lt_pow_succ_log_self (by norm_num) x
  have hL3 : Nat.log 2 x < 24 := by
    by_contra hc
    have : 2 ^ 24 ≤ 2 ^ Nat.log 2 x := Nat.pow_le_pow_right (by norm_num) (by omega)
    omega
  have hk : (0 : ℚ) < 2 ^ k := zpow_pos (by norm_num) k
  have hsplit : (2 : ℚ) ^ k =
      2 ^ (23 - Nat.log 2 x) * 2 ^ ((Nat.log 2 x : Int) + k - 23) := by
    rw [← zpow_natCast, ← zpow_add₀ (by norm_num : (2 : ℚ) ≠ 0)]
    congr 1
    omega
  have h1 : (2 : ℚ) ^ ((Nat.log 2 x : Int) + k) ≤ (x : ℚ) * 2 ^ k := by
    rw [zpow_add₀ (by norm_num : (2 : ℚ) ≠ 0), zpow_natCast]
    exact mul_le_mul_of_nonneg_right (by exact_mod_cast hL1) hk.le
  have h2 : (x : ℚ) * 2 ^ k < (2 : ℚ) ^ ((Nat.log 2 x : Int) + k + 1) := by
    rw [show (Nat.log 2 x : Int) + k + 1 = ((Nat.log 2 x + 1 : Nat) : Int) + k by push_cast; ring,
      zpow_add₀ (by norm_num : (2 : ℚ) ≠ 0), zpow_natCast]
    exact mul_lt_mul_of_pos_right (by exact_mod_cast hL2) hk
  have hb := (round_binade h1 h2 (by omega) (by omega)).1
  have ht : (x : ℚ) * 2 ^ k / 2 ^ ((Nat.log 2 x : Int) + k - 23) =
      (((x * 2 ^ (23 - Nat.log 2 x) : Nat) : Int) : ℚ) := by
    have hQ : (2 : ℚ) ^ ((Nat.log 2 x : Int) + k - 23) ≠ 0 := (zpow_pos (by norm_num) _).ne'
    rw [div_eq_iff hQ]
    push_cast
    rw [hsplit]
    ring
  rw [hb, ht, roundHalfEven_intCast]
  congr 1
  push_cast
  rw [hsplit]
  ring

theorem ofInt_exact (n : Nat) (h : n ≤ 2 ^ 24) : float.ofInt (n : Int) = .finite (n : ℚ) := by
  unfold float.ofInt
  rcases Nat.eq_zero_or_pos n with h0 | h0
  · subst h0; simpa using round_zero
  · rcases Nat.lt_or_ge n (2 ^ 24) with h1 | h1
    · have := round_dyadic n 0 h0 h1 (by norm_num) (by norm_num)
      simpa using this
    · have hn : n = 2 ^ 24 := by omega
      have := round_dyadic 1 24 (by norm_num) (by norm_num) (by norm_num) (by norm_num)
      subst hn
      norm_num at this ⊢
      exact this

theorem round_one : float.round 1 = .finite 1 := by
  have := round_dyadic 1 0 (by norm_num) (by norm_num) (by norm_num) (by norm_num)
  simpa using this

/-- Rounding of a positive number of the normal range: the result is finite
and lies between the same powers of two. -/
theorem round_bounds {q : ℚ} {a b : Int} (ha : -126 ≤ a) (hb : b ≤ 127)
    (h1 : (2 : ℚ) ^ a ≤ q) (h2 : q < (2 : ℚ) ^ b) :
    ∃ v : ℚ, float.round q = .finite v ∧ (2 : ℚ) ^ a ≤ v ∧ v ≤ (2 : ℚ) ^ b := by
  have hq : 0 < q := lt_of_lt_of_le (zpow_pos (by norm_num) a) h1
  have g1 : (2 : ℚ) ^ Int.log 2 q ≤ q := by
    have := Int.zpow_log_le_self (b := 2) (by norm_num) hq
    exact_mod_cast this
  have g2 : q < (2 : ℚ) ^ (Int.log 2 q + 1) := by
    have := Int.lt_zpow_succ_log_self (b := 2) (by norm_num) q
    exact_mod_cast this
  have a1 : a ≤ Int.log 2 q := by
    rw [← Int.zpow_le_iff_le_log (by norm_num) hq]; exact_mod_cast h1
  have a2 : Int.log 2 q < b := by
    rw [← Int.lt_zpow_iff_log_lt (by norm_num) hq]; exact_mod_cast h2
  obtain ⟨hr, hm1, hm2, _⟩ := round_binade g1 g2 (by omega) (by omega)
  have hQ : (0 : ℚ) < 2 ^ (Int.log 2 q - 23) := zpow_pos (by norm_num) _
  refine ⟨_, hr, ?_, ?_⟩
  · have : (2 : ℚ) ^ a ≤ 2 ^ Int.log 2 q := zpow_le_zpow_right₀ (by norm_num) a1
    rw [two_zpow_split_low (Int.log 2 q)] at this
    have hm : ((2 ^ 23 : Int) : ℚ) ≤ (roundHalfEven (q / 2 ^ (Int.log 2 q - 23)) : ℚ) := by
      exact_mod_cast hm1
    push_cast at hm
    exact this.trans (mul_le_mul_of_nonneg_right hm hQ.le)
  · have : (2 : ℚ) ^ (Int.log 2 q + 1) ≤ 2 ^ b := zpow_le_zpow_right₀ (by norm_num) (by omega)
    rw [two_zpow_split (Int.log 2 q)] at this
    have hm : (roundHalfEven (q / 2 ^ (Int.log 2 q - 23)) : ℚ) ≤ ((2 ^ 24 : Int) : ℚ) := by
      exact_mod_cast hm2
    push_cast at hm
    exact (mul_le_mul_of_nonneg_right hm hQ.le).trans this

/-- Rounding of a number of `[2 ^ (-126), 1]`: the result is finite, at most
`2 ^ (-25)` away, and in `(0, 1]`. -/
theorem round_unit {q : ℚ} (h0 : (2 : ℚ) ^ (-126 : Int) ≤ q) (h1 : q ≤ 1) :
    ∃ v : ℚ, float.round q = .finite v ∧ |v - q| ≤ 1 / 2 ^ 25 ∧ 0 < v ∧ v ≤ 1 := by
  have hq : 0 < q := lt_of_lt_of_le (zpow_pos (by norm_num) _) h0
  rcases eq_or_lt_of_le h1 with h | h
  · subst h
    exact ⟨1, round_one, by norm_num, by norm_num, le_refl _⟩
  · have g1 : (2 : ℚ) ^ Int.log 2 q ≤ q := by
      have := Int.zpow_log_le_self (b := 2) (by norm_num) hq
      exact_mod_cast this
    have g2 : q < (2 : ℚ) ^ (Int.log 2 q + 1) := by
      have := Int.lt_zpow_succ_log_self (b := 2) (by norm_num) q
      exact_mod_cast this
    have a1 : -126 ≤ Int.log 2 q := by
      rw [← Int.zpow_le_iff_le_log (by norm_num) hq]; exact_mod_cast h0
    have a2 : Int.log 2 q < 0 := by
      rw [← Int.lt_zpow_iff_log_lt (by norm_num) hq]; simpa using h
    obtain ⟨hr, hm1, hm2, herr⟩ := round_binade g1 g2 a1 (by omega)
    obtain ⟨v, hv, hv1, hv2⟩ := round_bounds (a := -126) (b := 0) (le_refl _) (by norm_num) h0
      (by simpa using h)
    rw [hr] at hv
    have hvv : (roundHalfEven (q / 2 ^ (Int.log 2 q - 23)) : ℚ) * 2 ^ (Int.log 2 q - 23) = v := by
      simpa using hv
    refine ⟨v, by rw [hr, hvv], ?_, lt_of_lt_of_le (zpow_pos (by norm_num) _) hv1,
      by simpa using hv2⟩
    rw [← hvv]
    have : (2 : ℚ) ^ (Int.log 2 q - 24) ≤ 2 ^ (-25 : Int) :=
      zpow_le_zpow_right₀ (by norm_num) (by omega)
    have e25 : (2 : ℚ) ^ (-25 : Int) = 1 / 2 ^ 25 := by norm_num
    rw [← e25]
    exact herr.trans this

/-! ## The loops -/

theorem addKeys_FloatCurves (Curve : UCurveLinearColor) (Time : float) (c : FLinearColor)
    (i : Fin 4) :
    (addKeys Curve Time c).FloatCurves i = Curve.FloatCurves i ++ [⟨Time, c.Component i⟩] := by
  fin_cases i <;>
    simp [addKeys, UCurveLinearColor.AddKey, FRichCurve.AddKey, Function.update,
      FLinearColor.Component]

theorem UCurveLinearColor.ext_curves {C D : UCurveLinearColor}
    (h : ∀ i, C.FloatCurves i = D.FloatCurves i) : C = D := by
  cases C; cases D; simp only [UCurveLinearColor.mk.injEq]; funext i; exact h i

/-- When every read of the row succeeds, the loop over `x` appends to each
curve one key per column, in column order. -/
theorem forLoop_pixelStep_ok
    (reader : ETextureSourceFormat → List uint8 → Int → Except Fault FColor)
    (toLinear : FColor → FLinearColor) (fmt : ETextureSourceFormat) (srgb : Bool)
    (W : Int) (raw : List uint8) (y : Int) (col : Int → FColor) :
    ∀ (n : Nat) (start : Int) (C : UCurveLinearColor),
      (∀ k : Nat, k < n → reader fmt raw (Index W y (start + k)) = .ok (col (start + k))) →
      forLoop (pixelStep reader toLinear fmt srgb W raw y) n start C =
        .ok ⟨fun i => C.FloatCurves i ++ (List.range n).map (fun k : Nat =>
          ⟨Time W (start + (k : Int)),
            (LinearColor toLinear srgb (col (start + (k : Int)))).Component i⟩)⟩ := by
  intro n
  induction n with
  | zero => intro start C _; simp [forLoop]
  | succ n ih =>
    intro start C h
    have h0 := h 0 (Nat.succ_pos n)
    simp only [Nat.cast_zero, add_zero] at h0
    rw [forLoop, pixelStep, h0]
    simp only
    rw [ih (start + 1)]
    · congr 1
      apply UCurveLinearColor.ext_curves
      intro i
      simp only [addKeys_FloatCurves, List.range_succ_eq_map, List.map_cons, List.map_map,
        List.append_assoc, List.singleton_append, Nat.cast_zero, add_zero]
      congr 2
      apply List.map_congr_left
      intro k _
      simp only [Function.comp, Nat.cast_succ]
      rw [show start + 1 + (k : Int) = start + ((k : Int) + 1) by ring]
    · intro k hk
      have := h (k + 1) (Nat.succ_lt_succ hk)
      rw [show start + 1 + (k : Int) = start + ((k + 1 : Nat) : Int) by push_cast; ring]
      exact this

/-- Whenever the loop over `x` completes, the times of the keys it appends
to each curve are the times of the columns, in column order. -/
theorem forLoop_pixelStep_times
    (reader : ETextureSourceFormat → List uint8 → Int → Except Fault FColor)
    (toLinear : FColor → FLinearColor) (fmt : ETextureSourceFormat) (srgb : Bool)
    (W : Int) (raw : List uint8) (y : Int) :
    ∀ (n : Nat) (start : Int) (C D : UCurveLinearColor),
      forLoop (pixelStep reader toLinear fmt srgb W raw y) n start C = .ok D →
      ∀ i, (D.FloatCurves i).map (fun k => k.Time) =
        (C.FloatCurves i).map (fun k => k.Time) ++
          (List.range n).map (fun k : Nat => Time W (start + (k : Int))) := by
  intro n
  induction n with
  | zero =>
    intro start C D h i
    simp only [forLoop, Except.ok.injEq] at h
    simp [h]
  | succ n ih =>
    intro start C D h i
    rw [forLoop, pixelStep] at h
    cases hr : reader fmt raw (Index W y start) with
    | error e => simp [hr] at h
    | ok c =>
      simp only [hr] at h
      rw [ih (start + 1) _ D h i]
      simp only [addKeys_FloatCurves, List.range_succ_eq_map, List.map_cons, List.map_map,
        List.map_append, List.append_assoc, List.singleton_append, Nat.cast_zero, add_zero,
        List.map_nil, List.nil_append]
      congr 2
      apply List.map_congr_left
      intro k _
      simp only [Function.comp, Nat.cast_succ]
      rw [show start + 1 + (k : Int) = start + ((k : Int) + 1) by ring]

/-- When the curve object of every row is produced, the loop over `y`
appends one asset per row, in row order. -/
theorem forLoop_rowStep_ok
    (reader : ETextureSourceFormat → List uint8 → Int → Except Fault FColor)
    (toLinear : FColor → FLinearColor) (fmt : ETextureSourceFormat) (srgb : Bool)
    (W : Int) (raw : List uint8) (P N : String) (cv : Int → UCurveLinearColor) :
    ∀ (n : Nat) (start : Int) (Created : List CurveAsset),
      (∀ k : Nat, k < n →
        rowCurve reader toLinear fmt srgb W raw (start + (k : Int)) = .ok (cv (start + (k : Int)))) →
      forLoop (rowStep reader toLinear fmt srgb W raw P N) n start Created =
        .ok (Created ++ (List.range n).map (fun k : Nat =>
          ⟨P ++ Suffix (start + (k : Int)), N ++ Suffix (start + (k : Int)),
            cv (start + (k : Int))⟩)) := by
  intro n
  induction n with
  | zero => intro start Created _; simp [forLoop]
  | succ n ih =>
    intro start Created h
    have h0 := h 0 (Nat.succ_pos n)
    simp only [Nat.cast_zero, add_zero] at h0
    rw [forLoop, rowStep, h0]
    simp only
    rw [ih (start + 1)]
    · congr 1
      simp only [List.range_succ_eq_map, List.map_cons, List.map_map,
        List.append_assoc, List.singleton_append, Nat.cast_zero, add_zero]
      congr 2
      apply List.map_congr_left
      intro k _
      simp only [Function.comp, Nat.cast_succ]
      rw [show start + 1 + (k : Int) = start + ((k : Int) + 1) by ring]
    · intro k hk
      have := h (k + 1) (Nat.succ_lt_succ hk)
      rw [show start + 1 + (k : Int) = start + ((k + 1 : Nat) : Int) by push_cast; ring]
      exact this

/-- Whenever the loop over `y` completes, the curve object of every row was
produced, and the loop appended one asset per row, in row order. -/
theorem forLoop_rowStep_inv
    (reader : ETextureSourceFormat → List uint8 → Int → Except Fault FColor)
    (toLinear : FColor → FLinearColor) (fmt : ETextureSourceFormat) (srgb : Bool)
    (W : Int) (raw : List uint8) (P N : String) :
    ∀ (n : Nat) (start : Int) (Created out : List CurveAsset),
      forLoop (rowStep reader toLinear fmt srgb W raw P N) n start Created = .ok out →
      (∀ k : Nat, k < n →
        rowCurve reader toLinear fmt srgb W raw (start + (k : Int)) =
          .ok (rowCurveD reader toLinear fmt srgb W raw (start + (k : Int)))) ∧
      out = Created ++ (List.range n).map (fun k : Nat =>
          ⟨P ++ Suffix (start + (k : Int)), N ++ Suffix (start + (k : Int)),
            rowCurveD reader toLinear fmt srgb W raw (start + (k : Int))⟩) := by
  intro n
  induction n with
  | zero =>
    intro start Created out h
    simp only [forLoop, Except.ok.injEq] at h
    simp [h]
  | succ n ih =>
    intro start Created out h
    rw [forLoop, rowStep] at h
    cases hr : rowCurve reader toLinear fmt srgb W raw start with
    | error e => simp [hr] at h
    | ok c =>
      simp only [hr] at h
      obtain ⟨h1, h2⟩ := ih (start + 1) _ out h
      have hD : rowCurveD reader toLinear fmt srgb W raw start = c := by
        simp [rowCurveD, hr]
      constructor
      · intro k hk
        cases k with
        | zero => simp [hr, hD]
        | succ k =>
          have := h1 k (Nat.lt_of_succ_lt_succ hk)
          rw [show start + ((k + 1 : Nat) : Int) = start + 1 + (k : Int) by push_cast; ring]
          exact this
      · rw [h2]
        simp only [List.range_succ_eq_map, List.map_cons, List.map_map,
          List.append_assoc, List.singleton_append, Nat.cast_zero, add_zero, hD]
        congr 2
        apply List.map_congr_left
        intro k _
        simp only [Function.comp, Nat.cast_succ]
        rw [show start + 1 + (k : Int) = start + ((k : Int) + 1) by ring]

/-! ## Reading the buffer -/

theorem RawDataAt_ok (raw : List uint8) (o : Nat) (h : o < raw.length) :
    RawDataAt raw (o : Int) = .ok (raw.getD o 0) := by
  have h1 : ¬ ((o : Int) < 0) := by omega
  simp [RawDataAt, h1, List.getElem?_eq_getElem h, List.getD_eq_getElem?_getD]

theorem readBGRA_ok (raw : List uint8) (o : Nat) (h : o + 3 < raw.length)
    (hfit : raw.length < 2 ^ 31) : readBGRA raw (o : Int) = .ok (bgraAt raw o) := by
  have e1 : wrapInt32 ((o : Int) + 1) = ((o + 1 : Nat) : Int) := by
    rw [wrapInt32_eq_self (by norm_num; omega) (by norm_num at hfit ⊢; omega)]; push_cast; ring
  have e2 : wrapInt32 ((o : Int) + 2) = ((o + 2 : Nat) : Int) := by
    rw [wrapInt32_eq_self (by norm_num; omega) (by norm_num at hfit ⊢; omega)]; push_cast; ring
  have e3 : wrapInt32 ((o : Int) + 3) = ((o + 3 : Nat) : Int) := by
    rw [wrapInt32_eq_self (by norm_num; omega) (by norm_num at hfit ⊢; omega)]; push_cast; ring
  rw [readBGRA, e1, e2, e3, RawDataAt_ok raw o (by omega), RawDataAt_ok raw (o + 1) (by omega),
    RawDataAt_ok raw (o + 2) (by omega), RawDataAt_ok raw (o + 3) (by omega)]
  rfl

theorem copyMip_ok_length {m : Option (List uint8)} {W H : Int} {raw : List uint8}
    (hW : 0 < W) (hH : 0 < H) (h : copyMip m W H = .ok raw) (hne : raw ≠ []) :
    0 ≤ RawDataNum W H ∧ raw.length = (RawDataNum W H).toNat := by
  cases m with
  | none => simp [copyMip] at h; exact absurd h hne
  | some Mip =>
    simp only [copyMip, hW, hH, and_self, if_true] at h
    by_cases h1 : RawDataNum W H < 0
    · simp [h1] at h
    · simp only [h1, if_false] at h
      by_cases h2 : Mip.length < (RawDataNum W H).toNat
      · simp [h2] at h
      · simp only [h2, if_false, Except.ok.injEq] at h
        refine ⟨by omega, ?_⟩
        rw [← h, List.length_take]
        omega

/-! ## The conversion of an image whose copy holds `W * H * 4` bytes -/

theorem copy_fits {m : Option (List uint8)} {W H : Nat} {raw : List uint8}
    (hW : 0 < W) (hH : 0 < H) (hraw : copyMip m (W : Int) (H : Int) = .ok raw)
    (hlen : raw.length = W * H * 4) : (W : Int) * (H : Int) * 4 < 2 ^ 31 := by
  have hpos : 0 < W * H * 4 := by positivity
  have hne : raw ≠ [] := by
    intro h; rw [h] at hlen; simp at hlen; omega
  obtain ⟨h0, h1⟩ := copyMip_ok_length (by exact_mod_cast hW) (by exact_mod_cast hH) hraw hne
  have h2 := (wrapInt32_range (wrapInt32 ((W : Int) * (H : Int)) * 4)).2
  have h3 : RawDataNum (W : Int) (H : Int) = ((W * H * 4 : Nat) : Int) := by
    rw [← hlen, h1]; exact (Int.toNat_of_nonneg h0).symm
  unfold RawDataNum at h3
  rw [h3] at h2
  push_cast at h2
  exact h2

theorem rowCurve_valid (toLinear : FColor → FLinearColor) (srgb : Bool) (W H : Nat)
    (raw : List uint8) (hlen : raw.length = W * H * 4)
    (hfit : (W : Int) * (H : Int) * 4 < 2 ^ 31) (y : Nat) (hy : y < H) :
    rowCurve readPixel toLinear TSF_BGRA8 srgb (W : Int) raw (y : Int) =
      .ok (rowCurveOf toLinear srgb W raw y) := by
  unfold rowCurve
  rw [Int.toNat_ofNat,
    forLoop_pixelStep_ok readPixel toLinear TSF_BGRA8 srgb (W : Int) raw (y : Int)
      (fun x => bgraAt raw ((y * W + x.toNat) * 4))]
  · congr 1
    apply UCurveLinearColor.ext_curves
    intro i
    simp [rowCurveOf, UCurveLinearColor.NewObject]
  · intro k hk
    have hb := pixel_bound (W := (W : Int)) (H := (H : Int)) (y := (y : Int)) (x := (k : Int))
      (by omega) (by exact_mod_cast hy) (by omega) (by exact_mod_cast hk)
    rw [zero_add, Index_eq (H := (H : Int)) (by omega) (by exact_mod_cast hy) (by omega)
      (by exact_mod_cast hk) hfit]
    have e : ((y : Int) * (W : Int) + (k : Int)) * 4 = (((y * W + k) * 4 : Nat) : Int) := by
      push_cast; ring
    have hlt : (y * W + k) * 4 + 3 < raw.length := by
      rw [hlen]
      have : ((y * W + k + 1 : Nat) : Int) ≤ ((W * H : Nat) : Int) := by
        push_cast; exact hb.2
      have : y * W + k + 1 ≤ W * H := by exact_mod_cast this
      omega
    have hfit2 : raw.length < 2 ^ 31 := by
      rw [hlen]
      have : ((W * H * 4 : Nat) : Int) < 2 ^ 31 := by push_cast; exact hfit
      exact_mod_cast this
    rw [e]
    simp only [readPixel, if_true, Int.toNat_ofNat]
    exact readBGRA_ok raw _ hlt hfit2

/-- The assets created for an image in BGRA8 format whose copy `RawData`
holds `W * H * 4` bytes: one per row, in row order. -/
theorem OnGenerateRamp_valid (toLinear : FColor → FLinearColor) (A : FAssetData)
    (t : UTexture2D) (W H : Nat) (raw : List uint8)
    (hA : A.Asset = some t) (hfmt : t.SourceFormat = TSF_BGRA8)
    (hX : t.SizeX = (W : Int)) (hY : t.SizeY = (H : Int)) (hW : 0 < W) (hH : 0 < H)
    (hraw : copyMip t.Mip0 t.SizeX t.SizeY = .ok raw) (hlen : raw.length = W * H * 4) :
    OnGenerateRamp toLinear A =
      .ok ((List.range H).map (fun y : Nat =>
        ⟨A.PackageName ++ Suffix (y : Int), A.AssetName ++ Suffix (y : Int),
          rowCurveOf toLinear t.SRGB W raw y⟩)) := by
  have hfit := copy_fits hW hH (by rw [← hX, ← hY]; exact hraw) hlen
  have hpos : 0 < W * H * 4 := by positivity
  have hne : ¬ raw.length = 0 := by omega
  unfold OnGenerateRamp OnGenerateRampWith
  simp only [hA, hfmt, ne_eq, not_true_eq_false, if_false, hraw, hne]
  rw [hY, hX, Int.toNat_ofNat,
    forLoop_rowStep_ok readPixel toLinear TSF_BGRA8 t.SRGB (W : Int) raw A.PackageName
      A.AssetName (fun y => rowCurveOf toLinear t.SRGB W raw y.toNat)]
  · simp
  · intro k hk
    rw [zero_add, Int.toNat_ofNat]
    exact rowCurve_valid toLinear t.SRGB W H raw hlen hfit k hk

/-! ## Properties of the conversion -/

/-- C1. For an image in BGRA8 format of width `W > 0` and height `H > 0`
whose decoded buffer `RawData` holds `W * H * 4` bytes, `OnGenerateRamp`
creates exactly `H` curve sets, the `y`-th being the one named after row `y`,
and each of the 4 channel curves of each curve set has exactly `W` keys. -/
theorem OnGenerateRamp_row_count (toLinear : FColor → FLinearColor) (A : FAssetData)
    (t : UTexture2D) (W H : Nat) (RawData : List uint8)
    (hA : A.Asset = some t) (hfmt : t.SourceFormat = TSF_BGRA8)
    (hX : t.SizeX = (W : Int)) (hY : t.SizeY = (H : Int)) (hW : 0 < W) (hH : 0 < H)
    (hraw : copyMip t.Mip0 t.SizeX t.SizeY = .ok RawData)
    (hlen : RawData.length = W * H * 4) :
    ∃ assets : List CurveAsset,
      OnGenerateRamp toLinear A = .ok assets ∧ assets.length = H ∧
      ∀ y : Nat, y < H → ∃ a : CurveAsset,
        assets[y]? = some a ∧
        a.PackageName = A.PackageName ++ Suffix (y : Int) ∧
        a.AssetName = A.AssetName ++ Suffix (y : Int) ∧
        rowCurve readPixel toLinear t.SourceFormat t.SRGB t.SizeX RawData (y : Int) =
          .ok a.Curve ∧
        ∀ i : Fin 4, (a.Curve.FloatCurves i).length = W := by
  have hfit := copy_fits hW hH (by rw [← hX, ← hY]; exact hraw) hlen
  refine ⟨_, OnGenerateRamp_valid toLinear A t W H RawData hA hfmt hX hY hW hH hraw hlen,
    by simp, ?_⟩
  intro y hy
  refine ⟨_, by simp [hy]; rfl, rfl, rfl, ?_, ?_⟩
  · rw [hfmt, hX]
    exact rowCurve_valid toLinear t.SRGB W H RawData hlen hfit y hy
  · intro i
    simp [rowCurveOf]

theorem OnGenerateRamp_row_count_example :
    ∃ assets : List CurveAsset,
      OnGenerateRamp exampleToLinear exampleAsset = .ok assets ∧ assets.length = 1 ∧
      ∀ y : Nat, y < 1 → ∃ a : CurveAsset,
        assets[y]? = some a ∧
        a.PackageName = exampleAsset.PackageName ++ Suffix (y : Int) ∧
        a.AssetName = exampleAsset.AssetName ++ Suffix (y : Int) ∧
        rowCurve readPixel exampleToLinear exampleTexture.SourceFormat exampleTexture.SRGB
          exampleTexture.SizeX exampleBytes (y : Int) = .ok a.Curve ∧
        ∀ i : Fin 4, (a.Curve.FloatCurves i).length = 2 :=
  OnGenerateRamp_row_count exampleToLinear exampleAsset exampleTexture 2 1 exampleBytes rfl rfl rfl rfl
    (by decide) (by decide) rfl rfl

theorem offset_in_buffer {W H y x : Nat} (hy : y < H) (hx : x < W) :
    (y * W + x) * 4 + 3 < W * H * 4 := by
  have h1 : (y + 1) * W ≤ H * W := Nat.mul_le_mul_right W hy
  have h2 : H * W = W * H := Nat.mul_comm H W
  have h3 : (y + 1) * W = y * W + W := by ring
  omega

theorem getElem?_eq_some_getD (raw : List uint8) (o : Nat) (h : o < raw.length) :
    raw[o]? = some (raw.getD o 0) := by
  simp [List.getElem?_eq_getElem h, List.getD_eq_getElem?_getD]

theorem OnGenerateRamp_example :
    OnGenerateRamp exampleToLinear exampleAsset =
      .ok [⟨"/Game/Ramp_Curve_0", "Ramp_Curve_0", rowCurveOf exampleToLinear false 2 exampleBytes 0⟩] :=
  OnGenerateRamp_valid exampleToLinear exampleAsset exampleTexture 2 1 exampleBytes rfl rfl rfl rfl
    (by decide) (by decide) rfl rfl

/-- Whenever the conversion completes, the key times of every curve it
created are the times of the columns `0, 1, ...` of the image, in that order. -/
theorem OnGenerateRamp_times (toLinear : FColor → FLinearColor) (A : FAssetData)
    (t : UTexture2D) (assets : List CurveAsset) (hA : A.Asset = some t)
    (hok : OnGenerateRamp toLinear A = .ok assets) :
    ∀ a ∈ assets, ∀ i : Fin 4,
      (a.Curve.FloatCurves i).map (fun k => k.Time) =
        (List.range t.SizeX.toNat).map (fun x : Nat => Time t.SizeX (x : Int)) := by
  unfold OnGenerateRamp OnGenerateRampWith at hok
  simp only [hA] at hok
  by_cases hfmt : t.SourceFormat = TSF_BGRA8
  · simp only [hfmt, ne_eq, not_true_eq_false, if_false] at hok
    cases hc : copyMip t.Mip0 t.SizeX t.SizeY with
    | error e => simp [hc] at hok
    | ok raw =>
      simp only [hc] at hok
      by_cases hz : raw.length = 0
      · simp only [hz, if_true, Except.ok.injEq] at hok
        intro a ha; rw [← hok] at ha; simp at ha
      · simp only [hz, if_false] at hok
        obtain ⟨h1, h2⟩ := forLoop_rowStep_inv _ _ _ _ _ _ _ _ _ _ _ _ hok
        intro a ha i
        rw [h2, List.nil_append, List.mem_map] at ha
        obtain ⟨k, hk, rfl⟩ := ha
        have hk2 := h1 k (List.mem_range.mp hk)
        unfold rowCurve at hk2
        have := forLoop_pixelStep_times _ _ _ _ _ _ _ _ _ _ _ hk2 i
        simpa [UCurveLinearColor.NewObject] using this
  · simp only [ne_eq, hfmt, not_false_eq_true, if_true, Except.ok.injEq] at hok
    intro a ha; rw [← hok] at ha; simp at ha

theorem OnGenerateRamp_column_example :
    OnGenerateRamp exampleToLinear columnAsset =
      .ok [⟨"/Game/Column_Curve_0", "Column_Curve_0", rowCurveOf exampleToLinear true 1 columnBytes 0⟩,
        ⟨"/Game/Column_Curve_1", "Column_Curve_1", rowCurveOf exampleToLinear true 1 columnBytes 1⟩] :=
  OnGenerateRamp_valid exampleToLinear columnAsset columnTexture 1 2 columnBytes rfl rfl rfl rfl
    (by decide) (by decide) rfl rfl

theorem pixelStep_reader_congr
    (reader : ETextureSourceFormat → List uint8 → Int → Except Fault FColor)
    (h : ∀ raw i, reader TSF_BGRA8 raw i = readBGRA raw i)
    (toLinear : FColor → FLinearColor) (srgb : Bool) (W : Int) (raw : List uint8) :
    rowStep reader toLinear TSF_BGRA8 srgb W raw = rowStep readPixel toLinear TSF_BGRA8 srgb W raw := by
  have e : ∀ y, pixelStep reader toLinear TSF_BGRA8 srgb W raw y =
      pixelStep readPixel toLinear TSF_BGRA8 srgb W raw y := by
    intro y
    funext x C
    simp [pixelStep, h, readPixel]
  funext P N y Created
  simp [rowStep, rowCurve, e]

/-- C5. For an image whose source format is not BGRA8, whatever its
dimensions, bytes and sRGB flag, `OnGenerateRamp` creates nothing and does not
fault, and this whatever the per-pixel code does: the format is rejected
before any pixel is processed. For every image, replacing the per-pixel reads
of the formats other than BGRA8 by any other code leaves the conversion
unchanged: every pixel is read by the BGRA branch. -/
theorem OnGenerateRamp_unsupported_format (toLinear : FColor → FLinearColor)
    (A : FAssetData) (t : UTexture2D) (hA : A.Asset = some t)
    (hfmt : t.SourceFormat ≠ TSF_BGRA8) :
    OnGenerateRamp toLinear A = .ok [] ∧
    (∀ reader : ETextureSourceFormat → List uint8 → Int → Except Fault FColor,
      OnGenerateRampWith reader toLinear A = .ok []) ∧
    (∀ (B : FAssetData)
      (reader : ETextureSourceFormat → List uint8 → Int → Except Fault FColor),
      (∀ raw i, reader TSF_BGRA8 raw i = readBGRA raw i) →
      OnGenerateRampWith reader toLinear B = OnGenerateRamp toLinear B) := by
  refine ⟨?_, ?_, ?_⟩
  · simp [OnGenerateRamp, OnGenerateRampWith, hA, hfmt]
  · intro reader
    simp [OnGenerateRampWith, hA, hfmt]
  · intro B reader h
    unfold OnGenerateRamp OnGenerateRampWith
    cases hB : B.Asset with
    | none => rfl
    | some u =>
      by_cases hu : u.SourceFormat = TSF_BGRA8
      · simp only [hu, pixelStep_reader_congr reader h]
      · simp [hu]

theorem OnGenerateRamp_unsupported_format_example :
    OnGenerateRamp exampleToLinear ⟨"/Game/Gray", "Gray", some ⟨TSF_Other 1, 2, 1, false,
      some exampleBytes⟩⟩ = .ok [] ∧
    (∀ reader : ETextureSourceFormat → List uint8 → Int → Except Fault FColor,
      OnGenerateRampWith reader exampleToLinear ⟨"/Game/Gray", "Gray", some ⟨TSF_Other 1, 2, 1, false,
        some exampleBytes⟩⟩ = .ok []) ∧
    (∀ (B : FAssetData)
      (reader : ETextureSourceFormat → List uint8 → Int → Except Fault FColor),
      (∀ raw i, reader TSF_BGRA8 raw i = readBGRA raw i) →
      OnGenerateRampWith reader exampleToLinear B = OnGenerateRamp exampleToLinear B) :=
  OnGenerateRamp_unsupported_format exampleToLinear _ ⟨TSF_Other 1, 2, 1, false, some exampleBytes⟩ rfl
    (by decide)

/-- C6. For an image in BGRA8 format whose width or height is not positive,
or whose mip 0 is null, `OnGenerateRamp` creates no curve set and does not
fault. -/
theorem OnGenerateRamp_empty_image (toLinear : FColor → FLinearColor)
    (A : FAssetData) (t : UTexture2D) (hA : A.Asset = some t)
    (hfmt : t.SourceFormat = TSF_BGRA8)
    (h : t.SizeX ≤ 0 ∨ t.SizeY ≤ 0 ∨ t.Mip0 = none) :
    OnGenerateRamp toLinear A = .ok [] := by
  have hc : copyMip t.Mip0 t.SizeX t.SizeY = .ok [] := by
    cases hm : t.Mip0 with
    | none => rfl
    | some Mip =>
      have hn : ¬ (t.SizeX > 0 ∧ t.SizeY > 0) := by
        rcases h with h | h | h
        · omega
        · omega
        · rw [hm] at h; cases h
      simp [copyMip, hn]
  simp [OnGenerateRamp, OnGenerateRampWith, hA, hfmt, hc]

theorem OnGenerateRamp_empty_image_example :
    OnGenerateRamp exampleToLinear ⟨"/Game/Flat", "Flat", some ⟨TSF_BGRA8, 4, 0, false,
      some exampleBytes⟩⟩ = .ok [] ∧
    OnGenerateRamp exampleToLinear ⟨"/Game/Flat", "Flat", some ⟨TSF_BGRA8, 2, 1, false, none⟩⟩ = .ok [] :=
  ⟨OnGenerateRamp_empty_image exampleToLinear _ ⟨TSF_BGRA8, 4, 0, false, some exampleBytes⟩ rfl rfl
    (Or.inr (Or.inl (by decide))),
   OnGenerateRamp_empty_image exampleToLinear _ ⟨TSF_BGRA8, 2, 1, false, none⟩ rfl rfl
    (Or.inr (Or.inr rfl))⟩

theorem copyMip_take {Mip : List uint8} {W H : Nat} (hW : 0 < W) (hH : 0 < H)
    (hfit : (W : Int) * (H : Int) * 4 < 2 ^ 31) (hMip : W * H * 4 ≤ Mip.length) :
    copyMip (some Mip) (W : Int) (H : Int) = .ok (Mip.take (W * H * 4)) := by
  have hn := RawDataNum_eq (W := (W : Int)) (H := (H : Int)) (by exact_mod_cast hW)
    (by exact_mod_cast hH) hfit
  have hW2 : (W : Int) > 0 := by exact_mod_cast hW
  have hH2 : (H : Int) > 0 := by exact_mod_cast hH
  have e : (W : Int) * (H : Int) * 4 = ((W * H * 4 : Nat) : Int) := by push_cast; ring
  have h1 : ¬ (((W * H * 4 : Nat) : Int) < 0) := by omega
  have h2 : ¬ (Mip.length < W * H * 4) := by omega
  simp only [copyMip, hW2, hH2, and_self, if_true, hn, e, h1, if_false, Int.toNat_ofNat, h2]

/-- C7, as the code has it. For positive `W` and `H` with `W * H * 4 ≤ 2^31 - 1`:
the buffer size computed in `int32` is `W * H * 4`, the offset of every pixel
computed in `int32` is `(y * W + x) * 4`, and the conversion of an image in
BGRA8 format of these dimensions whose mip 0 holds at least `W * H * 4` bytes
goes over all `H` rows. -/
theorem RawDataNum_exact_of_fit (W H : Nat) (hW : 0 < W) (hH : 0 < H)
    (hfit : W * H * 4 ≤ 2 ^ 31 - 1) :
    RawDataNum (W : Int) (H : Int) = ((W * H * 4 : Nat) : Int) ∧
    (∀ y x : Nat, y < H → x < W →
      Index (W : Int) (y : Int) (x : Int) = (((y * W + x) * 4 : Nat) : Int)) ∧
    (∀ (toLinear : FColor → FLinearColor) (A : FAssetData) (t : UTexture2D)
      (Mip : List uint8),
      A.Asset = some t → t.SourceFormat = TSF_BGRA8 → t.SizeX = (W : Int) →
      t.SizeY = (H : Int) → t.Mip0 = some Mip → W * H * 4 ≤ Mip.length →
      ∃ assets : List CurveAsset,
        OnGenerateRamp toLinear A = .ok assets ∧ assets.length = H) := by
  have hfit2 : (W : Int) * (H : Int) * 4 < 2 ^ 31 := by
    have : ((W * H * 4 : Nat) : Int) < 2 ^ 31 := by
      have : W * H * 4 < 2 ^ 31 := by omega
      exact_mod_cast this
    push_cast at this
    exact this
  refine ⟨?_, ?_, ?_⟩
  · rw [RawDataNum_eq (by exact_mod_cast hW) (by exact_mod_cast hH) hfit2]
    push_cast; ring
  · intro y x hy hx
    rw [Index_eq (H := (H : Int)) (by omega) (by exact_mod_cast hy) (by omega)
      (by exact_mod_cast hx) hfit2]
    push_cast; ring
  · intro toLinear A t Mip hA hfmt hX hY hM hlen
    have hc : copyMip t.Mip0 t.SizeX t.SizeY = .ok (Mip.take (W * H * 4)) := by
      rw [hM, hX, hY]; exact copyMip_take hW hH hfit2 hlen
    refine ⟨_, OnGenerateRamp_valid toLinear A t W H _ hA hfmt hX hY hW hH hc ?_, by simp⟩
    rw [List.length_take]; omega

theorem RawDataNum_exact_of_fit_example :
    RawDataNum ((2 : Nat) : Int) ((1 : Nat) : Int) = ((2 * 1 * 4 : Nat) : Int) ∧
    (∀ y x : Nat, y < 1 → x < 2 →
      Index ((2 : Nat) : Int) (y : Int) (x : Int) = (((y * 2 + x) * 4 : Nat) : Int)) ∧
    (∀ (toLinear : FColor → FLinearColor) (A : FAssetData) (t : UTexture2D)
      (Mip : List uint8),
      A.Asset = some t → t.SourceFormat = TSF_BGRA8 → t.SizeX = ((2 : Nat) : Int) →
      t.SizeY = ((1 : Nat) : Int) → t.Mip0 = some Mip → 2 * 1 * 4 ≤ Mip.length →
      ∃ assets : List CurveAsset,
        OnGenerateRamp toLinear A = .ok assets ∧ assets.length = 1) :=
  RawDataNum_exact_of_fit 2 1 (by decide) (by decide) (by decide)

/-- C7 fails as stated. `32768` is a positive `int32` value, and for
`Width = Height = 32768` the buffer size computed in `int32` is `0`, not
`32768 * 32768 * 4`; the conversion of a BGRA8 image of these dimensions
creates no row, whatever its mip 0 holds. -/
theorem RawDataNum_large_image :
    (0 : Int) < 32768 ∧ (32768 : Int) < 2 ^ 31 ∧
    RawDataNum 32768 32768 = 0 ∧
    RawDataNum 32768 32768 ≠ 32768 * 32768 * 4 ∧
    ∀ Mip : List uint8,
      OnGenerateRamp exampleToLinear
        ⟨"/Game/Large", "Large", some ⟨TSF_BGRA8, 32768, 32768, false, some Mip⟩⟩ = .ok [] := by
  have h0 : RawDataNum 32768 32768 = 0 := by decide
  refine ⟨by decide, by decide, h0, by decide, ?_⟩
  intro Mip
  simp [OnGenerateRamp, OnGenerateRampWith, copyMip, h0]

theorem readRGBA_ok (raw : List uint8) (o : Nat) (h : o + 3 < raw.length)
    (hfit : raw.length < 2 ^ 31) :
    readRGBA raw (o : Int) =
      .ok ⟨raw.getD o 0, raw.getD (o + 1) 0, raw.getD (o + 2) 0, raw.getD (o + 3) 0⟩ := by
  have e1 : wrapInt32 ((o : Int) + 1) = ((o + 1 : Nat) : Int) := by
    rw [wrapInt32_eq_self (by norm_num; omega) (by norm_num at hfit ⊢; omega)]; push_cast; ring
  have e2 : wrapInt32 ((o : Int) + 2) = ((o + 2 : Nat) : Int) := by
    rw [wrapInt32_eq_self (by norm_num; omega) (by norm_num at hfit ⊢; omega)]; push_cast; ring
  have e3 : wrapInt32 ((o : Int) + 3) = ((o + 3 : Nat) : Int) := by
    rw [wrapInt32_eq_self (by norm_num; omega) (by norm_num at hfit ⊢; omega)]; push_cast; ring
  rw [readRGBA, e1, e2, e3, RawDataAt_ok raw o (by omega), RawDataAt_ok raw (o + 1) (by omega),
    RawDataAt_ok raw (o + 2) (by omega), RawDataAt_ok raw (o + 3) (by omega)]
  rfl

theorem offset_unique {W y x k y2 x2 k2 : Nat} (hx : x < W) (hk : k < 4) (hx2 : x2 < W)
    (hk2 : k2 < 4) (h : (y * W + x) * 4 + k = (y2 * W + x2) * 4 + k2) :
    y = y2 ∧ x = x2 ∧ k = k2 := by
  have hkk : k = k2 := by omega
  have hq : y * W + x = y2 * W + x2 := by omega
  have hW : 0 < W := by omega
  have hy : y = y2 := by
    have h1 : (y * W + x) / W = y := by
      rw [Nat.add_comm, Nat.add_mul_div_right _ _ hW, Nat.div_eq_of_lt hx, Nat.zero_add]
    have h2 : (y2 * W + x2) / W = y2 := by
      rw [Nat.add_comm, Nat.add_mul_div_right _ _ hW, Nat.div_eq_of_lt hx2, Nat.zero_add]
    rw [← h1, ← h2, hq]
  subst hy
  exact ⟨rfl, by omega, hkk⟩

/-- C8. For `W > 0`, `H > 0` and `W * H * 4 ≤ 2^31 - 1`: for every row
`y < H`, column `x < W` and `k < 4`, the index `Index + k` with
`Index = (y * W + x) * 4` is computed without overflow, is non-negative and is
less than `W * H * 4`; every read of a buffer `RawData` of `W * H * 4` bytes in
the loop succeeds; and every byte offset of the buffer is read for exactly
one `(y, x, k)`. -/
theorem reads_in_bounds (W H : Nat) (hW : 0 < W) (_hH : 0 < H)
    (hfit : W * H * 4 ≤ 2 ^ 31 - 1) :
    (∀ y x k : Nat, y < H → x < W → k < 4 →
      Index (W : Int) (y : Int) (x : Int) = (((y * W + x) * 4 : Nat) : Int) ∧
      wrapInt32 (Index (W : Int) (y : Int) (x : Int) + (k : Int)) =
        Index (W : Int) (y : Int) (x : Int) + (k : Int) ∧
      0 ≤ Index (W : Int) (y : Int) (x : Int) + (k : Int) ∧
      Index (W : Int) (y : Int) (x : Int) + (k : Int) < ((W * H * 4 : Nat) : Int)) ∧
    (∀ RawData : List uint8, RawData.length = W * H * 4 →
      ∀ y x : Nat, y < H → x < W →
        (∀ k : Nat, k < 4 → ∃ b : uint8,
          RawDataAt RawData (Index (W : Int) (y : Int) (x : Int) + (k : Int)) = .ok b) ∧
        (∀ fmt : ETextureSourceFormat, ∃ c : FColor,
          readPixel fmt RawData (Index (W : Int) (y : Int) (x : Int)) = .ok c)) ∧
    (∀ p : Nat, p < W * H * 4 →
      ∃! yxk : Nat × Nat × Nat, yxk.1 < H ∧ yxk.2.1 < W ∧ yxk.2.2 < 4 ∧
        Index (W : Int) (yxk.1 : Int) (yxk.2.1 : Int) + (yxk.2.2 : Int) = (p : Int)) := by
  have hfitN : W * H * 4 < 2 ^ 31 := by omega
  have hfit2 : (W : Int) * (H : Int) * 4 < 2 ^ 31 := by
    have : ((W * H * 4 : Nat) : Int) < 2 ^ 31 := by exact_mod_cast hfitN
    push_cast at this
    exact this
  have hidx : ∀ y x : Nat, y < H → x < W →
      Index (W : Int) (y : Int) (x : Int) = (((y * W + x) * 4 : Nat) : Int) := by
    intro y x hy hx
    rw [Index_eq (H := (H : Int)) (by omega) (by exact_mod_cast hy) (by omega)
      (by exact_mod_cast hx) hfit2]
    push_cast; ring
  refine ⟨?_, ?_, ?_⟩
  · intro y x k hy hx hk
    have ho := offset_in_buffer hy hx
    rw [hidx y x hy hx]
    refine ⟨rfl, ?_, by omega, by omega⟩
    exact wrapInt32_eq_self (by norm_num; omega) (by norm_num at hfitN ⊢; omega)
  · intro RawData hlen y x hy hx
    have ho := offset_in_buffer hy hx
    rw [hidx y x hy hx]
    constructor
    · intro k hk
      refine ⟨RawData.getD ((y * W + x) * 4 + k) 0, ?_⟩
      have := RawDataAt_ok RawData ((y * W + x) * 4 + k) (by omega)
      rw [← this]; push_cast; rfl
    · intro fmt
      by_cases hf : fmt = TSF_BGRA8
      · exact ⟨_, by rw [readPixel, if_pos hf]; exact readBGRA_ok RawData _ (by omega) (by omega)⟩
      · exact ⟨_, by rw [readPixel, if_neg hf]; exact readRGBA_ok RawData _ (by omega) (by omega)⟩
  · intro p hp
    have hq : p / 4 < W * H := by omega
    have hy : p / 4 / W < H := Nat.div_lt_of_lt_mul hq
    have hx : p / 4 % W < W := Nat.mod_lt _ hW
    have hk : p % 4 < 4 := Nat.mod_lt _ (by decide)
    have hsum : (p / 4 / W * W + p / 4 % W) * 4 + p % 4 = p := by
      rw [Nat.div_add_mod']
      omega
    refine ⟨(p / 4 / W, p / 4 % W, p % 4), ⟨hy, hx, hk, ?_⟩, ?_⟩
    · simp only
      rw [hidx _ _ hy hx]
      exact_mod_cast hsum
    · rintro ⟨y2, x2, k2⟩ ⟨hy2, hx2, hk2, h2⟩
      simp only at hy2 hx2 hk2 h2
      rw [hidx _ _ hy2 hx2] at h2
      have h3 : (y2 * W + x2) * 4 + k2 = p := by exact_mod_cast h2
      obtain ⟨e1, e2, e3⟩ := offset_unique hx2 hk2 hx hk (h3.trans hsum.symm)
      rw [e1, e2, e3]

theorem reads_in_bounds_example :
    (∀ y x k : Nat, y < 1 → x < 2 → k < 4 →
      Index ((2 : Nat) : Int) (y : Int) (x : Int) = (((y * 2 + x) * 4 : Nat) : Int) ∧
      wrapInt32 (Index ((2 : Nat) : Int) (y : Int) (x : Int) + (k : Int)) =
        Index ((2 : Nat) : Int) (y : Int) (x : Int) + (k : Int) ∧
      0 ≤ Index ((2 : Nat) : Int) (y : Int) (x : Int) + (k : Int) ∧
      Index ((2 : Nat) : Int) (y : Int) (x : Int) + (k : Int) < ((2 * 1 * 4 : Nat) : Int)) ∧
    (∀ RawData : List uint8, RawData.length = 2 * 1 * 4 →
      ∀ y x : Nat, y < 1 → x < 2 →
        (∀ k : Nat, k < 4 → ∃ b : uint8,
          RawDataAt RawData (Index ((2 : Nat) : Int) (y : Int) (x : Int) + (k : Int)) =
            .ok b) ∧
        (∀ fmt : ETextureSourceFormat, ∃ c : FColor,
          readPixel fmt RawData (Index ((2 : Nat) : Int) (y : Int) (x : Int)) = .ok c)) ∧
    (∀ p : Nat, p < 2 * 1 * 4 →
      ∃! yxk : Nat × Nat × Nat, yxk.1 < 1 ∧ yxk.2.1 < 2 ∧ yxk.2.2 < 4 ∧
        Index ((2 : Nat) : Int) (yxk.1 : Int) (yxk.2.1 : Int) + (yxk.2.2 : Int) =
          (p : Int)) :=
  reads_in_bounds 2 1 (by decide) (by decide) (by decide)

/-! ## Names of the created objects -/

theorem digitChar_value (k : Nat) (hk : k < 10) : (Nat.digitChar k).toNat - 48 = k := by
  interval_cases k <;> rfl

theorem foldl_toDigitsCore (fuel : Nat) :
    ∀ (n : Nat) (ds : List Char), n < fuel →
      (Nat.toDigitsCore 10 fuel n ds).foldl (fun acc c => 10 * acc + (c.toNat - 48)) 0 =
        ds.foldl (fun acc c => 10 * acc + (c.toNat - 48)) n := by
  induction fuel with
  | zero => intro n ds h; omega
  | succ fuel ih =>
    intro n ds h
    have hd := digitChar_value (n % 10) (Nat.mod_lt _ (by decide))
    rw [Nat.toDigitsCore]
    by_cases h0 : n / 10 = 0
    · simp only [h0, if_true, List.foldl_cons, hd]
      congr 1; omega
    · simp only [h0, if_false]
      rw [ih (n / 10) _ (by omega)]
      simp only [List.foldl_cons, hd]
      congr 1; omega

theorem digitsValue_repr (n : Nat) : digitsValue (Nat.repr n).data = n := by
  simp only [digitsValue, Nat.repr, Nat.toDigits, List.asString]
  rw [foldl_toDigitsCore (n + 1) n [] (Nat.lt_succ_self n)]
  rfl

theorem Suffix_injective {y1 y2 : Nat} (P : String)
    (h : P ++ Suffix (y1 : Int) = P ++ Suffix (y2 : Int)) : y1 = y2 := by
  have h1 : ¬ ((y1 : Int) < 0) := by omega
  have h2 : ¬ ((y2 : Int) < 0) := by omega
  simp only [Suffix, decimal, h1, h2, if_false, Int.toNat_ofNat] at h
  have h3 := congrArg String.data h
  simp only [String.data_append, List.append_cancel_left_eq] at h3
  have h4 := congrArg digitsValue h3
  rwa [digitsValue_repr, digitsValue_repr] at h4

/-- Whenever the conversion completes, the created assets are named after the
rows `0, 1, ...`, in that order. -/
theorem OnGenerateRamp_names (toLinear : FColor → FLinearColor) (A : FAssetData)
    (assets : List CurveAsset) (hok : OnGenerateRamp toLinear A = .ok assets) :
    ∃ n : Nat,
      assets.map (fun a => a.PackageName) =
        (List.range n).map (fun k : Nat => A.PackageName ++ Suffix (k : Int)) ∧
      assets.map (fun a => a.AssetName) =
        (List.range n).map (fun k : Nat => A.AssetName ++ Suffix (k : Int)) := by
  unfold OnGenerateRamp OnGenerateRampWith at hok
  cases hA : A.Asset with
  | none =>
    simp only [hA, Except.ok.injEq] at hok
    exact ⟨0, by simp [← hok], by simp [← hok]⟩
  | some t =>
    simp only [hA] at hok
    by_cases hfmt : t.SourceFormat = TSF_BGRA8
    · simp only [hfmt, ne_eq, not_true_eq_false, if_false] at hok
      cases hc : copyMip t.Mip0 t.SizeX t.SizeY with
      | error e => simp [hc] at hok
      | ok raw =>
        simp only [hc] at hok
        by_cases hz : raw.length = 0
        · simp only [hz, if_true, Except.ok.injEq] at hok
          exact ⟨0, by simp [← hok], by simp [← hok]⟩
        · simp only [hz, if_false] at hok
          obtain ⟨_, h2⟩ := forLoop_rowStep_inv _ _ _ _ _ _ _ _ _ _ _ _ hok
          refine ⟨t.SizeY.toNat, ?_, ?_⟩ <;>
          · rw [h2]; simp [Function.comp]
    · simp only [ne_eq, hfmt, not_false_eq_true, if_true, Except.ok.injEq] at hok
      exact ⟨0, by simp [← hok], by simp [← hok]⟩

/-- C9. For every base package name `P` and base asset name `N`, the names
`P + "_Curve_" + decimal(y)` of two distinct rows are distinct, and so are the
names `N + "_Curve_" + decimal(y)`; the package names of the objects created
by one conversion are pairwise distinct, and so are their asset names. -/
theorem created_names_distinct (P N : String) :
    (∀ y1 y2 : Nat, y1 ≠ y2 →
      P ++ Suffix (y1 : Int) ≠ P ++ Suffix (y2 : Int) ∧
      N ++ Suffix (y1 : Int) ≠ N ++ Suffix (y2 : Int)) ∧
    (∀ (toLinear : FColor → FLinearColor) (Asset : Option UTexture2D)
      (assets : List CurveAsset),
      OnGenerateRamp toLinear ⟨P, N, Asset⟩ = .ok assets →
      (assets.map (fun a => a.PackageName)).Nodup ∧
      (assets.map (fun a => a.AssetName)).Nodup) := by
  constructor
  · intro y1 y2 hne
    exact ⟨fun h => hne (Suffix_injective P h), fun h => hne (Suffix_injective N h)⟩
  · intro toLinear Asset assets hok
    obtain ⟨n, h1, h2⟩ := OnGenerateRamp_names toLinear _ assets hok
    rw [h1, h2]
    exact ⟨(List.nodup_range n).map (fun _ _ h => Suffix_injective P h),
      (List.nodup_range n).map (fun _ _ h => Suffix_injective N h)⟩

theorem created_names_distinct_example :
    ("/Game/Column" ++ Suffix ((0 : Nat) : Int) ≠ "/Game/Column" ++ Suffix ((1 : Nat) : Int) ∧
      "Column" ++ Suffix ((0 : Nat) : Int) ≠ "Column" ++ Suffix ((1 : Nat) : Int)) ∧
    (["/Game/Column_Curve_0", "/Game/Column_Curve_1"].Nodup ∧
      ["Column_Curve_0", "Column_Curve_1"].Nodup) :=
  ⟨(created_names_distinct "/Game/Column" "Column").1 0 1 (by decide),
   (created_names_distinct "/Game/Column" "Column").2 exampleToLinear (some columnTexture) _
    OnGenerateRamp_column_example⟩

theorem rowCurveOf_congr (toLinear : FColor → FLinearColor) (srgb : Bool) (W : Nat)
    (raw1 raw2 : List uint8) (y : Nat)
    (hrow : ∀ j : Nat, y * W * 4 ≤ j → j < (y + 1) * W * 4 → raw1[j]? = raw2[j]?) :
    rowCurveOf toLinear srgb W raw1 y = rowCurveOf toLinear srgb W raw2 y := by
  apply UCurveLinearColor.ext_curves
  intro i
  simp only [rowCurveOf]
  apply List.map_congr_left
  intro x hx
  have hx2 : x < W := List.mem_range.mp hx
  have hb : (y * W + x) * 4 + 3 < (y + 1) * W * 4 := by
    have : (y + 1) * W = y * W + W := by ring
    omega
  have hlo : y * W * 4 ≤ (y * W + x) * 4 := by omega
  have e : bgraAt raw1 ((y * W + x) * 4) = bgraAt raw2 ((y * W + x) * 4) := by
    simp only [bgraAt, List.getD_eq_getElem?_getD]
    rw [hrow _ hlo (by omega), hrow ((y * W + x) * 4 + 1) (by omega) (by omega),
      hrow ((y * W + x) * 4 + 2) (by omega) (by omega),
      hrow ((y * W + x) * 4 + 3) (by omega) (by omega)]
  rw [e]

/-- C10. For two images in BGRA8 format with the same width `W`, height `H`
and sRGB flag, whose decoded buffers hold `W * H * 4` bytes and agree on the
bytes of row `y` (the offsets from `y * W * 4` up to, not including,
`(y + 1) * W * 4`), the curve set created for row `y` is the same in both
conversions. -/
theorem row_independence (toLinear : FColor → FLinearColor) (A1 A2 : FAssetData)
    (t1 t2 : UTexture2D) (W H : Nat) (raw1 raw2 : List uint8) (y : Nat)
    (hA1 : A1.Asset = some t1) (hA2 : A2.Asset = some t2)
    (hf1 : t1.SourceFormat = TSF_BGRA8) (hf2 : t2.SourceFormat = TSF_BGRA8)
    (hX1 : t1.SizeX = (W : Int)) (hX2 : t2.SizeX = (W : Int))
    (hY1 : t1.SizeY = (H : Int)) (hY2 : t2.SizeY = (H : Int))
    (hsrgb : t1.SRGB = t2.SRGB) (hW : 0 < W)
    (hraw1 : copyMip t1.Mip0 t1.SizeX t1.SizeY = .ok raw1)
    (hraw2 : copyMip t2.Mip0 t2.SizeX t2.SizeY = .ok raw2)
    (hlen1 : raw1.length = W * H * 4) (hlen2 : raw2.length = W * H * 4) (hy : y < H)
    (hrow : ∀ j : Nat, y * W * 4 ≤ j → j < (y + 1) * W * 4 → raw1[j]? = raw2[j]?) :
    ∃ (assets1 assets2 : List CurveAsset) (a1 a2 : CurveAsset),
      OnGenerateRamp toLinear A1 = .ok assets1 ∧
      OnGenerateRamp toLinear A2 = .ok assets2 ∧
      assets1[y]? = some a1 ∧ assets2[y]? = some a2 ∧ a1.Curve = a2.Curve := by
  have hH : 0 < H := by omega
  refine ⟨_, _, _, _,
    OnGenerateRamp_valid toLinear A1 t1 W H raw1 hA1 hf1 hX1 hY1 hW hH hraw1 hlen1,
    OnGenerateRamp_valid toLinear A2 t2 W H raw2 hA2 hf2 hX2 hY2 hW hH hraw2 hlen2,
    by simp [hy]; rfl, by simp [hy]; rfl, ?_⟩
  simp only [hsrgb]
  exact rowCurveOf_congr toLinear t2.SRGB W raw1 raw2 y hrow

theorem row_independence_example :
    ∃ (assets1 assets2 : List CurveAsset) (a1 a2 : CurveAsset),
      OnGenerateRamp exampleToLinear columnAsset = .ok assets1 ∧
      OnGenerateRamp exampleToLinear
        ⟨"/Game/Other", "Other", some ⟨TSF_BGRA8, 1, 2, true, some otherColumnBytes⟩⟩ =
          .ok assets2 ∧
      assets1[0]? = some a1 ∧ assets2[0]? = some a2 ∧ a1.Curve = a2.Curve :=
  row_independence exampleToLinear columnAsset _ columnTexture
    ⟨TSF_BGRA8, 1, 2, true, some otherColumnBytes⟩ 1 2 columnBytes otherColumnBytes 0
    rfl rfl rfl rfl rfl rfl rfl rfl rfl (by decide) rfl rfl rfl rfl (by decide)
    (by
      intro j _ hj
      have hj4 : j < 4 := by omega
      interval_cases j <;> rfl)

/-! ## The values and times of the keys -/

theorem div_finite (a b : ℚ) (hb : b ≠ 0) :
    (float.finite a).div (float.finite b) = float.round (a / b) := by
  simp [float.div, hb]

theorem round_255 : float.round 255 = .finite 255 := by
  have := round_dyadic 255 0 (by norm_num) (by norm_num) (by norm_num) (by norm_num)
  simpa using this

/-- The channel value computed for a byte is the byte over 255, rounded. -/
theorem scale_byte (b : uint8) :
    (float.ofInt (b.val : Int)).div (float.round 255) = float.round ((b.val : ℚ) / 255) := by
  have hb : b.val ≤ 2 ^ 24 := by
    have := b.isLt
    omega
  rw [ofInt_exact b.val hb, round_255, div_finite _ _ (by norm_num)]

/-- The byte over 255, rounded, is a finite number at most `2 ^ (-25)` away
from the quotient. -/
theorem round_byte (b : uint8) :
    ∃ v : ℚ, float.round ((b.val : ℚ) / 255) = .finite v ∧
      |v - (b.val : ℚ) / 255| ≤ 1 / 2 ^ 25 := by
  rcases Nat.eq_zero_or_pos b.val with h0 | h0
  · rw [h0]
    exact ⟨0, by simpa using round_zero, by norm_num⟩
  · have h1 : (1 : ℚ) ≤ (b.val : ℚ) := by exact_mod_cast h0
    have h2 : (b.val : ℚ) ≤ 255 := by
      have := b.isLt
      have : b.val ≤ 255 := by omega
      exact_mod_cast this
    have hlo : (2 : ℚ) ^ (-126 : Int) ≤ (b.val : ℚ) / 255 := by
      have : (2 : ℚ) ^ (-126 : Int) ≤ 1 / 255 := by
        rw [zpow_neg, inv_eq_one_div]
        apply one_div_le_one_div_of_le (by norm_num)
        norm_num
      exact this.trans (div_le_div_of_nonneg_right h1 (by norm_num))
    have hhi : (b.val : ℚ) / 255 ≤ 1 := by
      rw [div_le_one (by norm_num)]; exact h2
    obtain ⟨v, hv, herr, _, _⟩ := round_unit hlo hhi
    exact ⟨v, hv, herr⟩

theorem roundHalfEven_eq_of_near {t : ℚ} {z : Int} (h : |(z : ℚ) - t| < 1 / 2) :
    roundHalfEven t = z := by
  have h1 := roundHalfEven_sub_le t
  rw [abs_le] at h1
  rw [abs_lt] at h
  have a1 : ((roundHalfEven t : Int) : ℚ) < ((z + 1 : Int) : ℚ) := by push_cast; linarith
  have a2 : ((z - 1 : Int) : ℚ) < ((roundHalfEven t : Int) : ℚ) := by push_cast; linarith
  have b1 : roundHalfEven t < z + 1 := by exact_mod_cast a1
  have b2 : z - 1 < roundHalfEven t := by exact_mod_cast a2
  omega

theorem roundHalfEven_tie_even {t : ℚ} {z : Int} (h : t = (z : ℚ) + 1 / 2) (hz : z % 2 = 0) :
    roundHalfEven t = z := by
  have hf : ⌊t⌋ = z := by
    rw [Int.floor_eq_iff]; constructor <;> linarith
  unfold roundHalfEven
  rw [hf]
  have e : t - (z : ℚ) = 1 / 2 := by linarith
  simp [e, hz]

theorem Time_of_one_lt {W x : Nat} (hW : 1 < W) :
    Time (W : Int) (x : Int) = (float.ofInt (x : Int)).div (float.ofInt ((W - 1 : Nat) : Int)) := by
  have h : (W : Int) > 1 := by exact_mod_cast hW
  have e : (W : Int) - 1 = ((W - 1 : Nat) : Int) := by omega
  simp only [Time, h, if_true, e]

/-- A positive `int32` value converts to a finite `float` that is at least 1. -/
theorem ofInt_pos (n : Nat) (h1 : 1 ≤ n) (h2 : n < 2 ^ 31) :
    ∃ v : ℚ, float.ofInt (n : Int) = .finite v ∧ 1 ≤ v ∧ v ≤ 2 ^ 31 := by
  have a1 : (2 : ℚ) ^ (0 : Int) ≤ (n : ℚ) := by
    simpa using (show (1 : ℚ) ≤ (n : ℚ) by exact_mod_cast h1)
  have a2 : (n : ℚ) < (2 : ℚ) ^ (31 : Int) := by
    have h3 : n < 2147483648 := by omega
    norm_num
    exact h3
  obtain ⟨v, hv, hv1, hv2⟩ := round_bounds (by norm_num) (by norm_num) a1 a2
  refine ⟨v, ?_, by simpa using hv1, by norm_num at hv2 ⊢; exact hv2⟩
  unfold float.ofInt
  simpa using hv

theorem Time_first {W : Nat} (hW : 1 < W) (hW2 : W ≤ 2 ^ 31) :
    Time (W : Int) ((0 : Nat) : Int) = .finite 0 := by
  obtain ⟨d, hd, hd1, _⟩ := ofInt_pos (W - 1) (by omega) (by omega)
  have : float.ofInt ((0 : Nat) : Int) = .finite 0 := by simpa using ofInt_exact 0 (by norm_num)
  rw [Time_of_one_lt hW, hd, this, div_finite _ _ (by linarith)]
  simpa using round_zero

theorem Time_last {W : Nat} (hW : 1 < W) (hW2 : W ≤ 2 ^ 31) :
    Time (W : Int) ((W - 1 : Nat) : Int) = .finite 1 := by
  obtain ⟨d, hd, hd1, _⟩ := ofInt_pos (W - 1) (by omega) (by omega)
  have hne : d ≠ 0 := by linarith
  rw [Time_of_one_lt hW, hd, div_finite _ _ hne, div_self hne]
  exact round_one

/-- For a width from 2 to `2 ^ 24 + 1`, both conversions are exact and the
time of column `x` is `x / (W - 1)` rounded. -/
theorem Time_eq_round {W x : Nat} (hW : 1 < W) (hW2 : W ≤ 2 ^ 24 + 1) (hx : x < W) :
    Time (W : Int) (x : Int) = float.round ((x : ℚ) / ((W : ℚ) - 1)) := by
  have hd : ((W - 1 : Nat) : ℚ) = (W : ℚ) - 1 := by
    rw [Nat.cast_sub (by omega)]; simp
  have hne : ((W - 1 : Nat) : ℚ) ≠ 0 := by
    have : 0 < W - 1 := by omega
    exact_mod_cast this.ne'
  rw [Time_of_one_lt hW, ofInt_exact x (by omega), ofInt_exact (W - 1) (by omega),
    div_finite _ _ hne, hd]

theorem Time_isRounded {W x : Nat} (hW : 1 < W) (hW2 : W ≤ 2 ^ 24 + 1) (hx : x < W) :
    (Time (W : Int) (x : Int)).IsRounded ((x : ℚ) / ((W : ℚ) - 1)) := by
  refine ⟨Time_eq_round hW hW2 hx, ?_⟩
  rw [Time_eq_round hW hW2 hx]
  have hdpos : (0 : ℚ) < (W : ℚ) - 1 := by
    have : (1 : ℚ) < (W : ℚ) := by exact_mod_cast hW
    linarith
  have hd24 : (W : ℚ) - 1 ≤ 2 ^ 24 := by
    have : (W : ℚ) ≤ ((2 ^ 24 + 1 : Nat) : ℚ) := by exact_mod_cast hW2
    push_cast at this
    linarith
  rcases Nat.eq_zero_or_pos x with h0 | h0
  · subst h0
    exact ⟨0, by simpa using round_zero, by norm_num⟩
  · have hx1 : (1 : ℚ) ≤ (x : ℚ) := by exact_mod_cast h0
    have hxd : (x : ℚ) ≤ (W : ℚ) - 1 := by
      have : x + 1 ≤ W := hx
      have : ((x + 1 : Nat) : ℚ) ≤ (W : ℚ) := by exact_mod_cast this
      push_cast at this
      linarith
    have hlo : (2 : ℚ) ^ (-126 : Int) ≤ (x : ℚ) / ((W : ℚ) - 1) := by
      rw [le_div_iff₀ hdpos]
      have : (2 : ℚ) ^ (-126 : Int) * ((W : ℚ) - 1) ≤ 2 ^ (-126 : Int) * 2 ^ 24 :=
        mul_le_mul_of_nonneg_left hd24 (by positivity)
      have e2 : (2 : ℚ) ^ (-126 : Int) * 2 ^ 24 ≤ 1 := by norm_num
      linarith
    have hhi : (x : ℚ) / ((W : ℚ) - 1) ≤ 1 := by
      rw [div_le_one hdpos]; exact hxd
    obtain ⟨v, hv, herr, _, _⟩ := round_unit hlo hhi
    exact ⟨v, hv, herr⟩

theorem round_over_pow24 (x : Nat) (hx : x ≤ 2 ^ 24) :
    float.round ((x : ℚ) / 2 ^ 24) = .finite ((x : ℚ) / 2 ^ 24) := by
  rcases Nat.eq_zero_or_pos x with h0 | h0
  · subst h0; simpa using round_zero
  · rcases Nat.lt_or_ge x (2 ^ 24) with h1 | h1
    · have := round_dyadic x (-24) h0 h1 (by norm_num) (by norm_num)
      have e : (x : ℚ) * 2 ^ (-24 : Int) = (x : ℚ) / 2 ^ 24 := by
        rw [zpow_neg, div_eq_mul_inv]; norm_num
      rw [e] at this
      exact this
    · have hx2 : x = 2 ^ 24 := by omega
      subst hx2
      have : (((2 ^ 24 : Nat) : ℚ)) / 2 ^ 24 = 1 := by norm_num
      rw [this]
      exact round_one

/-- For a width from 2 to `2 ^ 24 + 1`, the time of a column is smaller than
the time of every later column. -/
theorem Time_strictMono {W x1 x2 : Nat} (hW : 1 < W) (hW2 : W ≤ 2 ^ 24 + 1)
    (h12 : x1 < x2) (hx2 : x2 < W) :
    float.lt (Time (W : Int) (x1 : Int)) (Time (W : Int) (x2 : Int)) := by
  have hx1 : x1 < W := by omega
  rcases Nat.lt_or_ge W (2 ^ 24 + 1) with hlt | hge
  · obtain ⟨_, v1, hv1, he1⟩ := Time_isRounded hW hW2 hx1
    obtain ⟨_, v2, hv2, he2⟩ := Time_isRounded hW hW2 hx2
    rw [hv1, hv2]
    show v1 < v2
    have hdpos : (0 : ℚ) < (W : ℚ) - 1 := by
      have : (1 : ℚ) < (W : ℚ) := by exact_mod_cast hW
      linarith
    have hd24 : (W : ℚ) - 1 < 2 ^ 24 := by
      have : (W : ℚ) < ((2 ^ 24 + 1 : Nat) : ℚ) := by exact_mod_cast hlt
      push_cast at this
      linarith
    have hgap : (1 : ℚ) / 2 ^ 24 < (x2 : ℚ) / ((W : ℚ) - 1) - (x1 : ℚ) / ((W : ℚ) - 1) := by
      rw [← sub_div]
      have h1 : (1 : ℚ) ≤ (x2 : ℚ) - (x1 : ℚ) := by
        have : ((x1 + 1 : Nat) : ℚ) ≤ (x2 : ℚ) := by exact_mod_cast h12
        push_cast at this
        linarith
      have h2 : (1 : ℚ) / 2 ^ 24 < 1 / ((W : ℚ) - 1) :=
        one_div_lt_one_div_of_lt hdpos hd24
      exact h2.trans_le (div_le_div_of_nonneg_right h1 hdpos.le)
    rw [abs_le] at he1 he2
    have e25 : (1 : ℚ) / 2 ^ 25 + 1 / 2 ^ 25 = 1 / 2 ^ 24 := by norm_num
    linarith [he1.2, he2.1]
  · have hWeq : W = 2 ^ 24 + 1 := by omega
    have hd : (W : ℚ) - 1 = 2 ^ 24 := by
      rw [hWeq]; push_cast; ring
    rw [Time_eq_round hW hW2 hx1, Time_eq_round hW hW2 hx2, hd,
      round_over_pow24 x1 (by omega), round_over_pow24 x2 (by omega)]
    show (x1 : ℚ) / 2 ^ 24 < (x2 : ℚ) / 2 ^ 24
    apply div_lt_div_of_pos_right _ (by positivity)
    exact_mod_cast h12

/-- Whenever the loop over `x` completes, every read of the row succeeded. -/
theorem forLoop_pixelStep_reads
    (reader : ETextureSourceFormat → List uint8 → Int → Except Fault FColor)
    (toLinear : FColor → FLinearColor) (fmt : ETextureSourceFormat) (srgb : Bool)
    (W : Int) (raw : List uint8) (y : Int) :
    ∀ (n : Nat) (start : Int) (C D : UCurveLinearColor),
      forLoop (pixelStep reader toLinear fmt srgb W raw y) n start C = .ok D →
      ∀ k : Nat, k < n → ∃ c : FColor, reader fmt raw (Index W y (start + (k : Int))) = .ok c := by
  intro n
  induction n with
  | zero => intro start C D _ k hk; omega
  | succ n ih =>
    intro start C D h k hk
    rw [forLoop, pixelStep] at h
    cases hr : reader fmt raw (Index W y start) with
    | error e => simp [hr] at h
    | ok c =>
      simp only [hr] at h
      cases k with
      | zero => exact ⟨c, by simpa using hr⟩
      | succ k =>
        obtain ⟨c2, hc2⟩ := ih (start + 1) _ D h k (by omega)
        refine ⟨c2, ?_⟩
        rw [show start + ((k + 1 : Nat) : Int) = start + 1 + (k : Int) by push_cast; ring]
        exact hc2

theorem readPixel_overflow (raw : List uint8) (W : Int) :
    ∀ c : FColor, readPixel TSF_BGRA8 raw (Index W 0 (0 + ((2 ^ 29 : Nat) : Int))) ≠ .ok c := by
  have e : Index W 0 (0 + ((2 ^ 29 : Nat) : Int)) = -2147483648 := by
    simp only [Index, zero_mul, zero_add]
    norm_num [wrapInt32]
  intro c
  rw [e]
  simp [readPixel, readBGRA, RawDataAt, bind, Except.bind]

/-- The width of an image for which the conversion created a curve set is at
most `2 ^ 29`: a wider row has a byte offset that is not an `int32` value. -/
theorem converted_width_le (toLinear : FColor → FLinearColor) (A : FAssetData)
    (t : UTexture2D) (assets : List CurveAsset) (hA : A.Asset = some t)
    (hok : OnGenerateRamp toLinear A = .ok assets) (hne : assets ≠ []) :
    t.SizeX.toNat ≤ 2 ^ 29 := by
  unfold OnGenerateRamp OnGenerateRampWith at hok
  simp only [hA] at hok
  by_cases hfmt : t.SourceFormat = TSF_BGRA8
  · simp only [hfmt, ne_eq, not_true_eq_false, if_false] at hok
    cases hc : copyMip t.Mip0 t.SizeX t.SizeY with
    | error e => simp [hc] at hok
    | ok raw =>
      simp only [hc] at hok
      by_cases hz : raw.length = 0
      · simp only [hz, if_true, Except.ok.injEq] at hok
        exact absurd hok.symm hne
      · simp only [hz, if_false] at hok
        obtain ⟨h1, h2⟩ := forLoop_rowStep_inv _ _ _ _ _ _ _ _ _ _ _ _ hok
        have hH : 0 < t.SizeY.toNat := by
          rcases Nat.eq_zero_or_pos t.SizeY.toNat with h0 | h0
          · rw [h0] at h2; simp at h2; exact absurd h2 hne
          · exact h0
        have hr := h1 0 hH
        unfold rowCurve at hr
        by_contra hcon
        obtain ⟨c, hc2⟩ := forLoop_pixelStep_reads _ _ _ _ _ _ _ _ _ _ _ hr (2 ^ 29) (by omega)
        simp only [Nat.cast_zero, add_zero] at hc2
        exact readPixel_overflow raw t.SizeX c hc2
  · simp only [ne_eq, hfmt, not_false_eq_true, if_true, Except.ok.injEq] at hok
    exact absurd hok.symm hne

/-! ## Rounding of particular numbers -/

theorem round_51_over_255 :
    float.round ((51 : ℚ) / 255) = .finite (13421773 / 67108864) := by
  have hb := (round_binade (q := (51 : ℚ) / 255) (e := -3) (by norm_num) (by norm_num)
    (by norm_num) (by norm_num)).1
  have hr : roundHalfEven ((51 : ℚ) / 255 / 2 ^ ((-3 : Int) - 23)) = 13421773 := by
    apply roundHalfEven_eq_of_near
    norm_num [abs_lt]
  rw [hb, hr]
  norm_num

theorem ofInt_16777217 : float.ofInt 16777217 = .finite 16777216 := by
  unfold float.ofInt
  have hb := (round_binade (q := ((16777217 : Int) : ℚ)) (e := 24) (by norm_num) (by norm_num)
    (by norm_num) (by norm_num)).1
  have hr : roundHalfEven (((16777217 : Int) : ℚ) / 2 ^ ((24 : Int) - 23)) = 8388608 := by
    apply roundHalfEven_tie_even
    · norm_num
    · norm_num
  rw [hb, hr]
  norm_num

/-! ## The values of the keys -/

theorem OnGenerateRamp_gray :
    OnGenerateRamp exampleToLinear grayAsset =
      .ok [⟨"/Game/Gray_Curve_0", "Gray_Curve_0", rowCurveOf exampleToLinear false 1 grayBytes 0⟩] :=
  OnGenerateRamp_valid exampleToLinear grayAsset grayTexture 1 1 grayBytes rfl rfl rfl rfl
    (by decide) (by decide) rfl rfl

/-- C2 fails as stated. In the image of one pixel with the bytes
`[51, 51, 51, 255]`, not sRGB, the byte at offset `o + 2` is 51, and the value
of key 0 of the R curve is `13421773 / 67108864`, the binary32 number nearest
to `51 / 255`, not `51 / 255`. -/
theorem OnGenerateRamp_values_inexact :
    ∃ a : CurveAsset,
      OnGenerateRamp exampleToLinear grayAsset = .ok [a] ∧
      grayBytes[(0 * 1 + 0) * 4 + 2]? = some 51 ∧
      ((a.Curve.FloatCurves 0)[0]?).map (fun k => k.Value) =
        some (float.finite (13421773 / 67108864)) ∧
      float.finite (13421773 / 67108864) ≠ float.finite ((51 : ℚ) / 255) := by
  refine ⟨_, OnGenerateRamp_gray, rfl, ?_, ?_⟩
  · have h := scale_byte 51
    rw [show (((51 : uint8).val : Nat) : ℚ) = 51 from rfl, round_51_over_255] at h
    simp only [rowCurveOf, List.range_succ, List.range_zero, List.nil_append, List.map_cons,
      List.map_nil, LinearColor, scale255, bgraAt, grayBytes, FLinearColor.Component]
    simpa using h
  · intro h
    have h2 : (13421773 / 67108864 : ℚ) = 51 / 255 := by
      injection h
    norm_num at h2

/-- C2, as the code has it. For an image in BGRA8 format, not sRGB, of
width `W` and height `H` whose decoded buffer `RawData` holds `W * H * 4`
bytes, and for every row `y < H` and column `x < W`, with
`o = (y * W + x) * 4`: the value of key `x` of the curve set of row `y` is
`RawData[o + 2] / 255` on the R curve, `RawData[o + 1] / 255` on the G curve,
`RawData[o] / 255` on the B curve and `RawData[o + 3] / 255` on the A curve,
each quotient rounded to binary32: a finite number at most `2 ^ (-25)` away
from the quotient. -/
theorem OnGenerateRamp_values (toLinear : FColor → FLinearColor) (A : FAssetData)
    (t : UTexture2D) (W H : Nat) (RawData : List uint8)
    (hA : A.Asset = some t) (hfmt : t.SourceFormat = TSF_BGRA8) (hsrgb : t.SRGB = false)
    (hX : t.SizeX = (W : Int)) (hY : t.SizeY = (H : Int))
    (hraw : copyMip t.Mip0 t.SizeX t.SizeY = .ok RawData)
    (hlen : RawData.length = W * H * 4) (y x : Nat) (hy : y < H) (hx : x < W) :
    ∃ (assets : List CurveAsset) (a : CurveAsset) (b g r al : uint8)
      (kr kg kb ka : FRichCurveKey),
      OnGenerateRamp toLinear A = .ok assets ∧
      assets[y]? = some a ∧
      RawData[(y * W + x) * 4]? = some b ∧
      RawData[(y * W + x) * 4 + 1]? = some g ∧
      RawData[(y * W + x) * 4 + 2]? = some r ∧
      RawData[(y * W + x) * 4 + 3]? = some al ∧
      (a.Curve.FloatCurves 0)[x]? = some kr ∧ kr.Value.IsRounded ((r.val : ℚ) / 255) ∧
      (a.Curve.FloatCurves 1)[x]? = some kg ∧ kg.Value.IsRounded ((g.val : ℚ) / 255) ∧
      (a.Curve.FloatCurves 2)[x]? = some kb ∧ kb.Value.IsRounded ((b.val : ℚ) / 255) ∧
      (a.Curve.FloatCurves 3)[x]? = some ka ∧ ka.Value.IsRounded ((al.val : ℚ) / 255) := by
  have hW : 0 < W := by omega
  have hH : 0 < H := by omega
  have ho := offset_in_buffer hy hx
  rw [← hlen] at ho
  have hval : ∀ c : uint8, ((float.ofInt (c.val : Int)).div (float.round 255)).IsRounded
      ((c.val : ℚ) / 255) := by
    intro c
    rw [scale_byte c]
    obtain ⟨v, hv, herr⟩ := round_byte c
    exact ⟨rfl, v, hv, herr⟩
  refine ⟨_, _, _, _, _, _, _, _, _, _,
    OnGenerateRamp_valid toLinear A t W H RawData hA hfmt hX hY hW hH hraw hlen,
    by simp [hy]; rfl,
    getElem?_eq_some_getD RawData _ (by omega), getElem?_eq_some_getD RawData _ (by omega),
    getElem?_eq_some_getD RawData _ (by omega), getElem?_eq_some_getD RawData _ (by omega),
    by simp [rowCurveOf, hx]; rfl, ?_, by simp [rowCurveOf, hx]; rfl, ?_,
    by simp [rowCurveOf, hx]; rfl, ?_, by simp [rowCurveOf, hx]; rfl, ?_⟩ <;>
  · simp only [hsrgb, LinearColor, scale255, bgraAt, FLinearColor.Component]
    exact hval _

theorem scale_0 : (float.ofInt 0).div (float.round 255) = .finite 0 := by
  have h := scale_byte 0
  have e : float.round (((0 : uint8).val : ℚ) / 255) = .finite 0 := by
    simpa using round_zero
  rw [e] at h
  simpa using h

theorem scale_255 : (float.ofInt 255).div (float.round 255) = .finite 1 := by
  have h := scale_byte 255
  have e : float.round (((255 : uint8).val : ℚ) / 255) = .finite 1 := by
    rw [show (((255 : uint8).val : Nat) : ℚ) = 255 from rfl]
    simpa using round_one
  rw [e] at h
  simpa using h

theorem Time_2_0 : Time 2 0 = .finite 0 := by
  simpa using Time_first (W := 2) (by norm_num) (by norm_num)

theorem Time_2_1 : Time 2 1 = .finite 1 := by
  simpa using Time_last (W := 2) (by norm_num) (by norm_num)

theorem rowCurveOf_example :
    (rowCurveOf exampleToLinear false 2 exampleBytes 0).FloatCurves 0 =
      [⟨.finite 0, .finite 0⟩, ⟨.finite 1, .finite 0⟩] ∧
    (rowCurveOf exampleToLinear false 2 exampleBytes 0).FloatCurves 1 =
      [⟨.finite 0, .finite 0⟩, ⟨.finite 1, .finite 1⟩] ∧
    (rowCurveOf exampleToLinear false 2 exampleBytes 0).FloatCurves 2 =
      [⟨.finite 0, .finite 1⟩, ⟨.finite 1, .finite 0⟩] ∧
    (rowCurveOf exampleToLinear false 2 exampleBytes 0).FloatCurves 3 =
      [⟨.finite 0, .finite 1⟩, ⟨.finite 1, .finite 1⟩] := by
  have h255 : ((255 : Fin 256) : Nat) = 255 := rfl
  refine ⟨?_, ?_, ?_, ?_⟩ <;>
  simp [rowCurveOf, List.range_succ, LinearColor, scale255, bgraAt, exampleBytes,
    FLinearColor.Component, h255, scale_0, scale_255, Time_2_0, Time_2_1]

theorem OnGenerateRamp_values_example :
    (∃ (assets : List CurveAsset) (a : CurveAsset) (b g r al : uint8)
      (kr kg kb ka : FRichCurveKey),
      OnGenerateRamp exampleToLinear exampleAsset = .ok assets ∧
      assets[0]? = some a ∧
      exampleBytes[(0 * 2 + 1) * 4]? = some b ∧
      exampleBytes[(0 * 2 + 1) * 4 + 1]? = some g ∧
      exampleBytes[(0 * 2 + 1) * 4 + 2]? = some r ∧
      exampleBytes[(0 * 2 + 1) * 4 + 3]? = some al ∧
      (a.Curve.FloatCurves 0)[1]? = some kr ∧ kr.Value.IsRounded ((r.val : ℚ) / 255) ∧
      (a.Curve.FloatCurves 1)[1]? = some kg ∧ kg.Value.IsRounded ((g.val : ℚ) / 255) ∧
      (a.Curve.FloatCurves 2)[1]? = some kb ∧ kb.Value.IsRounded ((b.val : ℚ) / 255) ∧
      (a.Curve.FloatCurves 3)[1]? = some ka ∧ ka.Value.IsRounded ((al.val : ℚ) / 255)) ∧
    (∃ a : CurveAsset,
      OnGenerateRamp exampleToLinear exampleAsset = .ok [a] ∧
      a.Curve.FloatCurves 0 = [⟨.finite 0, .finite 0⟩, ⟨.finite 1, .finite 0⟩] ∧
      a.Curve.FloatCurves 1 = [⟨.finite 0, .finite 0⟩, ⟨.finite 1, .finite 1⟩] ∧
      a.Curve.FloatCurves 2 = [⟨.finite 0, .finite 1⟩, ⟨.finite 1, .finite 0⟩] ∧
      a.Curve.FloatCurves 3 = [⟨.finite 0, .finite 1⟩, ⟨.finite 1, .finite 1⟩]) :=
  ⟨OnGenerateRamp_values exampleToLinear exampleAsset exampleTexture 2 1 exampleBytes rfl rfl rfl
    rfl rfl rfl rfl 0 1 (by decide) (by decide),
   ⟨_, OnGenerateRamp_example, rowCurveOf_example⟩⟩

/-! ## The times of the keys -/

theorem OnGenerateRamp_black :
    OnGenerateRamp exampleToLinear blackAsset =
      .ok [⟨"/Game/Black_Curve_0", "Black_Curve_0",
        rowCurveOf exampleToLinear false 4 blackBytes 0⟩] :=
  OnGenerateRamp_valid exampleToLinear blackAsset blackTexture 4 1 blackBytes rfl rfl rfl rfl
    (by decide) (by decide) rfl rfl

theorem rowCurveOf_getElem?_time (toLinear : FColor → FLinearColor) (srgb : Bool) (W : Nat)
    (raw : List uint8) (y : Nat) (i : Fin 4) (x : Nat) (hx : x < W) :
    ∃ k : FRichCurveKey, ((rowCurveOf toLinear srgb W raw y).FloatCurves i)[x]? = some k ∧
      k.Time = Time (W : Int) (x : Int) := by
  refine ⟨_, by simp [rowCurveOf, hx]; rfl, rfl⟩

theorem wideBytes_length : wideBytes.length = 16777218 * 1 * 4 := by
  unfold wideBytes
  exact List.length_replicate _ _

theorem copyMip_wide :
    copyMip wideTexture.Mip0 wideTexture.SizeX wideTexture.SizeY =
      .ok (wideBytes.take (16777218 * 1 * 4)) := by
  have hl : 16777218 * 1 * 4 ≤ wideBytes.length := by rw [wideBytes_length]
  have h := copyMip_take (W := 16777218) (H := 1) (by norm_num) (by norm_num)
    (by norm_num) hl
  exact h

theorem OnGenerateRamp_wide :
    OnGenerateRamp exampleToLinear wideAsset =
      .ok ((List.range 1).map (fun y : Nat =>
        ⟨wideAsset.PackageName ++ Suffix (y : Int), wideAsset.AssetName ++ Suffix (y : Int),
          rowCurveOf exampleToLinear wideTexture.SRGB 16777218
            (wideBytes.take (16777218 * 1 * 4)) y⟩)) :=
  OnGenerateRamp_valid exampleToLinear wideAsset wideTexture 16777218 1 _ rfl rfl rfl rfl
    (by norm_num) (by norm_num) copyMip_wide
    (by rw [List.length_take, wideBytes_length]; exact Nat.min_self _)

theorem Time_wide :
    Time ((16777218 : Nat) : Int) ((16777216 : Nat) : Int) = .finite 1 ∧
    Time ((16777218 : Nat) : Int) ((16777217 : Nat) : Int) = .finite 1 := by
  have hd : float.ofInt ((16777218 - 1 : Nat) : Int) = .finite 16777216 := ofInt_16777217
  have h16 : float.ofInt ((16777216 : Nat) : Int) = .finite 16777216 := by
    simpa using ofInt_exact 16777216 (by norm_num)
  have hone : float.round ((16777216 : ℚ) / 16777216) = .finite 1 := by
    rw [div_self (by norm_num)]; exact round_one
  constructor
  · rw [Time_of_one_lt (by norm_num), hd, h16, div_finite _ _ (by norm_num), hone]
  · rw [Time_of_one_lt (by norm_num), hd, div_finite _ _ (by norm_num), hone]

/-- C4 fails as stated. In the black image of width 16777218 and height 1,
keys 16777216 and 16777217 of the R curve both have the time 1: `(float)`
of 16777217 is 16777216. -/
theorem OnGenerateRamp_times_collide :
    ∃ (assets : List CurveAsset) (a : CurveAsset) (k1 k2 : FRichCurveKey),
      OnGenerateRamp exampleToLinear wideAsset = .ok assets ∧
      wideTexture.SizeX = 16777218 ∧
      assets[0]? = some a ∧
      (a.Curve.FloatCurves 0)[16777216]? = some k1 ∧
      (a.Curve.FloatCurves 0)[16777217]? = some k2 ∧
      k1.Time = .finite 1 ∧ k2.Time = .finite 1 ∧ ¬ float.lt k1.Time k2.Time := by
  obtain ⟨k1, hk1, ht1⟩ := rowCurveOf_getElem?_time exampleToLinear wideTexture.SRGB 16777218
    (wideBytes.take (16777218 * 1 * 4)) 0 0 16777216 (by norm_num)
  obtain ⟨k2, hk2, ht2⟩ := rowCurveOf_getElem?_time exampleToLinear wideTexture.SRGB 16777218
    (wideBytes.take (16777218 * 1 * 4)) 0 0 16777217 (by norm_num)
  rw [Time_wide.1] at ht1
  rw [Time_wide.2] at ht2
  refine ⟨_, _, k1, k2, OnGenerateRamp_wide, rfl, rfl, hk1, hk2, ht1, ht2, ?_⟩
  rw [ht1, ht2]
  show ¬ ((1 : ℚ) < 1)
  norm_num

/-- C4, as the code has it. For a converted image of width `W > 1`, in every
channel curve of every created curve set the first key has the time `0` and
the last key has the time `1`; when moreover `W ≤ 2 ^ 24 + 1`, the key times,
in the order in which the keys were added, are strictly increasing. -/
theorem OnGenerateRamp_times_increasing (toLinear : FColor → FLinearColor) (A : FAssetData)
    (t : UTexture2D) (W : Nat) (assets : List CurveAsset) (hA : A.Asset = some t)
    (hX : t.SizeX = (W : Int)) (hW : 1 < W) (hok : OnGenerateRamp toLinear A = .ok assets) :
    ∀ a ∈ assets, ∀ i : Fin 4,
      (W ≤ 2 ^ 24 + 1 →
        List.Pairwise float.lt ((a.Curve.FloatCurves i).map (fun k => k.Time))) ∧
      ((a.Curve.FloatCurves i).head?).map (fun k => k.Time) = some (float.finite 0) ∧
      ((a.Curve.FloatCurves i).getLast?).map (fun k => k.Time) = some (float.finite 1) := by
  intro a ha i
  have h := OnGenerateRamp_times toLinear A t assets hA hok a ha i
  have hne : assets ≠ [] := List.ne_nil_of_mem ha
  have hW29 := converted_width_le toLinear A t assets hA hok hne
  rw [hX, Int.toNat_ofNat] at h hW29
  have hW31 : W ≤ 2 ^ 31 := by
    have : (2 : Nat) ^ 29 ≤ 2 ^ 31 := by norm_num
    omega
  refine ⟨?_, ?_, ?_⟩
  · intro h24
    rw [h, List.pairwise_map]
    have hp : List.Pairwise (fun x1 x2 : Nat => x1 < x2 ∧ x2 < W) (List.range W) := by
      have h1 : List.Pairwise (fun x1 x2 : Nat => x1 < x2) (List.range W) :=
        List.pairwise_lt_range W
      have h2 : ∀ x ∈ List.range W, x < W := fun x hx => List.mem_range.mp hx
      exact h1.imp_of_mem (fun {x1 x2} _ hx2 hlt => ⟨hlt, h2 x2 hx2⟩)
    exact hp.imp (fun hlt => Time_strictMono hW h24 hlt.1 hlt.2)
  · have e : ((a.Curve.FloatCurves i).map (fun k => k.Time)).head? = some (float.finite 0) := by
      rw [h]
      obtain ⟨n, rfl⟩ : ∃ n, W = n + 1 := ⟨W - 1, by omega⟩
      have h0 := Time_first hW hW31
      simp only [List.range_succ_eq_map, List.map_cons, List.head?_cons]
      simpa using h0
    simpa [List.head?_map] using e
  · have e : ((a.Curve.FloatCurves i).map (fun k => k.Time)).getLast? = some (float.finite 1) := by
      rw [h]
      obtain ⟨n, rfl⟩ : ∃ n, W = n + 1 := ⟨W - 1, by omega⟩
      have h1 := Time_last hW hW31
      rw [List.range_succ, List.map_append, List.map_cons, List.map_nil,
        List.getLast?_append_of_ne_nil _ (by simp), List.getLast?_singleton]
      simpa using h1
    simpa [List.getLast?_map] using e

theorem OnGenerateRamp_times_increasing_example :
    blackAsset.Asset = some blackTexture ∧ blackTexture.SizeX = ((4 : Nat) : Int) ∧
    ∀ a ∈ [(⟨"/Game/Black_Curve_0", "Black_Curve_0",
        rowCurveOf exampleToLinear false 4 blackBytes 0⟩ : CurveAsset)], ∀ i : Fin 4,
      (4 ≤ 2 ^ 24 + 1 →
        List.Pairwise float.lt ((a.Curve.FloatCurves i).map (fun k => k.Time))) ∧
      ((a.Curve.FloatCurves i).head?).map (fun k => k.Time) = some (float.finite 0) ∧
      ((a.Curve.FloatCurves i).getLast?).map (fun k => k.Time) = some (float.finite 1) :=
  ⟨rfl, rfl, OnGenerateRamp_times_increasing exampleToLinear blackAsset blackTexture 4 _
    rfl rfl (by decide) OnGenerateRamp_black⟩

end RampConvert
